import Mathlib

/-!
Verification of the `pomodoro` package of coffeebeanbot (pomodoro.go).

The package has two components:

* `Pomodoro`: one timed task.  `NewPomodoro` starts a goroutine
  (`performPom`) that waits, via `select`, for either the work timer to
  elapse or the cancel channel to be closed, and then spawns the callback
  `onWorkEnd(notifyInfo, completed)` with `completed = true` on natural
  expiry and `false` on cancellation.  `Cancel` closes the cancel channel,
  guarded by a `sync.Once`.

* `ChannelPomMap`: a mutex-guarded map from channel ID to `*Pomodoro`,
  with `CreateIfEmpty`, `RemoveIfExists` and `Count`.  `CreateIfEmpty`
  wraps the callback of the caller in `doneInMap`, which first calls
  `RemoveIfExists(notif.ChannelID)` and then the callback of the caller.

Embedding notes:

* Time is a natural number of abstract clock units; `tick` advances it.
* Each Go map-mutating operation runs entirely under `m.mutex`, so it is
  modelled as one atomic pure function on the whole system state.
* Goroutine interleavings are modelled by the step relation `Step`:
  `selectTimer` / `selectCancel` resolve the `select` in `performPom`
  (enabled respectively once the timer deadline is reached, and once the
  cancel channel is closed; both may be enabled at once, and the choice is
  nondeterministic, exactly as in Go), `cbRemove` is the
  `m.RemoveIfExists(notif.ChannelID)` call performed by `doneInMap`, and
  `cbUser` is the final invocation of the callback of the caller.
* Callback function values are abstract; a callback is identified by a
  numeric handle (`cbId`) and its invocations are observable in `cbLog`,
  which records the handle, the `NotifyInfo` passed, the completed flag
  and the time of the invocation.
* The raw `close` of a Go channel panics on an already-closed channel;
  `ChanState` records that possibility so that the `sync.Once` guard in
  `Cancel` is modelled faithfully rather than assumed away.
-/

namespace Cbb

/-- Mirrors `NotifyInfo` in pomodoro.go: the data needed to notify the
creating user when the Pomodoro ends. -/
structure NotifyInfo where
  Title : String
  UserID : String
  GuildID : String
  ChannelID : String
deriving DecidableEq

/-- The state of the `cancelChan` Go channel: open, closed, or the result
of a `close` on an already-closed channel (a runtime panic). -/
inductive ChanState where
  | opened
  | closed
  | panicked
deriving DecidableEq

/-- Closing a Go channel: closes an open channel, panics otherwise. -/
def closeChan : ChanState → ChanState
  | ChanState.opened => ChanState.closed
  | _ => ChanState.panicked

/-- Where a given Pomodoro is in its lifecycle:

* `waiting`: the `select` in `performPom` has not resolved yet;
* `fired b`: the `select` resolved (`b = true`: timer branch, `b = false`:
  cancel branch) and the `doneInMap` goroutine has been spawned but has
  not run yet;
* `removedFromMap b`: `doneInMap` has performed its
  `m.RemoveIfExists(notif.ChannelID)` call but has not yet invoked the
  callback of the caller;
* `done b`: the callback of the caller has been invoked with completed
  flag `b`. -/
inductive PomPhase where
  | waiting
  | fired (completed : Bool)
  | removedFromMap (completed : Bool)
  | done (completed : Bool)
deriving DecidableEq

/-- The flag carried by the phase, if the `select` has resolved. -/
def phaseFlag : PomPhase → Option Bool
  | PomPhase.waiting => none
  | PomPhase.fired b => some b
  | PomPhase.removedFromMap b => some b
  | PomPhase.done b => some b

/-- Mirrors the `Pomodoro` struct in pomodoro.go, together with the
bookkeeping (`createdAt`, `phase`) that makes the behaviour of its
`performPom` goroutine expressible as explicit transitions.
`cbId` is the abstract handle of the `onWorkEnd` callback of the caller. -/
structure Pomodoro where
  workDuration : Nat
  cbId : Nat
  notifyInfo : NotifyInfo
  createdAt : Nat
  cancelChan : ChanState
  cancelOnceDone : Bool
  phase : PomPhase
deriving DecidableEq

/-- Mirrors `Pomodoro.Cancel`: `pom.cancel.Do(func() { close(pom.cancelChan) })`.
The `sync.Once` runs the body only if it has not run before. -/
def Pomodoro.Cancel (pom : Pomodoro) : Pomodoro :=
  if pom.cancelOnceDone then pom
  else { pom with cancelOnceDone := true, cancelChan := closeChan pom.cancelChan }

/-- Mirrors `NewPomodoro`: builds the struct with a fresh open cancel
channel and an unused `sync.Once`, and starts `performPom` (the new
Pomodoro is in phase `waiting`, its timer created at time `now`). -/
def NewPomodoro (now : Nat) (workDuration : Nat) (onWorkEnd : Nat)
    (notify : NotifyInfo) : Pomodoro :=
  { workDuration := workDuration
    cbId := onWorkEnd
    notifyInfo := notify
    createdAt := now
    cancelChan := ChanState.opened
    cancelOnceDone := false
    phase := PomPhase.waiting }

/-- One recorded invocation of a callback of a caller: which Pomodoro,
which callback handle, the `NotifyInfo` and completed flag passed, and
the time of the invocation. -/
structure CbEvent where
  pomId : Nat
  cbId : Nat
  info : NotifyInfo
  completed : Bool
  time : Nat
deriving DecidableEq

/-- The whole system: the current time, the heap of Pomodoros created so
far (`poms`, addressed by creation index; `nextId` is the next fresh
index), the `channelToPom` map of the `ChannelPomMap` (an association
list with distinct keys, values being Pomodoro indices), and the log of
callback invocations. -/
@[ext] structure SysState where
  time : Nat
  nextId : Nat
  poms : Nat → Option Pomodoro
  channelToPom : List (String × Nat)
  cbLog : List CbEvent

/-- Go map read `m.channelToPom[k]`. -/
def lookupKey : List (String × Nat) → String → Option Nat
  | [], _ => none
  | e :: rest, k => if e.1 = k then some e.2 else lookupKey rest k

/-- Go map write `delete(m.channelToPom, k)`. -/
def eraseKey : List (String × Nat) → String → List (String × Nat)
  | [], _ => []
  | e :: rest, k => if e.1 = k then eraseKey rest k else e :: eraseKey rest k

/-- Overwrite the Pomodoro stored at index `pid`. -/
def setPom (s : SysState) (pid : Nat) (pom : Pomodoro) : SysState :=
  { s with poms := fun q => if q = pid then some pom else s.poms q }

/-- Delete the map entry of `ch` only (no `Cancel`); a building block used
to relate the states below. -/
def eraseEntry (s : SysState) (ch : String) : SysState :=
  { s with channelToPom := eraseKey s.channelToPom ch }

/-- The success branch of `RemoveIfExists`: `delete(m.channelToPom, channel)`
followed by `p.Cancel()` on the Pomodoro `pid` the entry pointed to. -/
def eraseCancel (s : SysState) (ch : String) (pid : Nat) : SysState :=
  { s with
      channelToPom := eraseKey s.channelToPom ch
      poms := fun q => if q = pid then (s.poms q).map Pomodoro.Cancel else s.poms q }

/-- The success branch of `CreateIfEmpty`:
`m.channelToPom[notify.ChannelID] = NewPomodoro(duration, doneInMap, notify)`,
allocating the Pomodoro at the fresh index `s.nextId`. -/
def registerPom (s : SysState) (duration : Nat) (onWorkEnd : Nat)
    (notify : NotifyInfo) : SysState :=
  { s with
      nextId := s.nextId + 1
      poms := fun q =>
        if q = s.nextId then some (NewPomodoro s.time duration onWorkEnd notify)
        else s.poms q
      channelToPom := (notify.ChannelID, s.nextId) :: s.channelToPom }

/-- Mirrors `ChannelPomMap.RemoveIfExists` (all of it runs under
`m.mutex`, hence one atomic function): if the channel has an entry,
delete it from the map and call `Cancel` on the owning Pomodoro,
returning `true`; otherwise return `false` and change nothing. -/
def RemoveIfExists (s : SysState) (channel : String) : SysState × Bool :=
  match lookupKey s.channelToPom channel with
  | some pid => (eraseCancel s channel pid, true)
  | none => (s, false)

/-- Mirrors `ChannelPomMap.CreateIfEmpty` (all of it runs under
`m.mutex`): if `notify.ChannelID` has no entry, register and start a new
Pomodoro under it (the Go code has no separate key parameter: the key is
`notify.ChannelID`) and return `true`; otherwise return `false` and
change nothing.  The `doneInMap` wrapper installed here is modelled by
the `Step.cbRemove` / `Step.cbUser` transitions below. -/
def CreateIfEmpty (s : SysState) (duration : Nat) (onWorkEnd : Nat)
    (notify : NotifyInfo) : SysState × Bool :=
  match lookupKey s.channelToPom notify.ChannelID with
  | some _ => (s, false)
  | none => (registerPom s duration onWorkEnd notify, true)

/-- Mirrors `ChannelPomMap.Count`: `len(m.channelToPom)` under `m.mutex`. -/
def Count (s : SysState) : Nat := s.channelToPom.length

/-- The small-step transition relation over the whole system.  `tick`
advances the clock; `create` and `remove` are calls to the two map
operations by arbitrary callers; `selectTimer` and `selectCancel` resolve
the `select` of `performPom` (timer branch enabled once the deadline has
passed, cancel branch enabled once the cancel channel is closed; when
both are enabled Go chooses nondeterministically, and here both steps are
enabled); `cbRemove` and `cbUser` are the two halves of the `doneInMap`
wrapper goroutine: first `m.RemoveIfExists(notif.ChannelID)`, then the
callback of the caller. -/
inductive Step : SysState → SysState → Prop where
  | tick (s : SysState) :
      Step s { s with time := s.time + 1 }
  | create (s : SysState) (duration onWorkEnd : Nat) (notify : NotifyInfo) :
      Step s (CreateIfEmpty s duration onWorkEnd notify).1
  | remove (s : SysState) (channel : String) :
      Step s (RemoveIfExists s channel).1
  | selectTimer (s : SysState) (pid : Nat) (pom : Pomodoro)
      (hpom : s.poms pid = some pom) (hphase : pom.phase = PomPhase.waiting)
      (htime : pom.createdAt + pom.workDuration ≤ s.time) :
      Step s (setPom s pid { pom with phase := PomPhase.fired true })
  | selectCancel (s : SysState) (pid : Nat) (pom : Pomodoro)
      (hpom : s.poms pid = some pom) (hphase : pom.phase = PomPhase.waiting)
      (hchan : pom.cancelChan = ChanState.closed) :
      Step s (setPom s pid { pom with phase := PomPhase.fired false })
  | cbRemove (s : SysState) (pid : Nat) (pom : Pomodoro) (b : Bool)
      (hpom : s.poms pid = some pom) (hphase : pom.phase = PomPhase.fired b) :
      Step s (RemoveIfExists
        (setPom s pid { pom with phase := PomPhase.removedFromMap b })
        pom.notifyInfo.ChannelID).1
  | cbUser (s : SysState) (pid : Nat) (pom : Pomodoro) (b : Bool)
      (hpom : s.poms pid = some pom)
      (hphase : pom.phase = PomPhase.removedFromMap b) :
      Step s { setPom s pid { pom with phase := PomPhase.done b } with
        cbLog := s.cbLog ++ [⟨pid, pom.cbId, pom.notifyInfo, b, s.time⟩] }

/-- The initial system: a fresh `NewChannelPomMap`, no Pomodoros yet. -/
def initState : SysState :=
  { time := 0, nextId := 0, poms := fun _ => none, channelToPom := [], cbLog := [] }

/-- States reachable from the initial system by any interleaving. -/
def Reachable (s : SysState) : Prop :=
  Relation.ReflTransGen Step initState s

/-- The invocations of the callback belonging to Pomodoro `pid`. -/
def logFor (s : SysState) (pid : Nat) : List CbEvent :=
  s.cbLog.filter (fun e => e.pomId = pid)

/-- Append one callback invocation to the log. -/
def pushEvent (s : SysState) (ev : CbEvent) : SysState :=
  { s with cbLog := s.cbLog ++ [ev] }

/-- Advance the clock by `n` units. -/
def ticks (s : SysState) (n : Nat) : SysState := { s with time := s.time + n }

/-- A sequence of `CreateIfEmpty` calls, one per element of `calls` (each
element being duration, callback handle and `NotifyInfo`), returning the
final state and the list of returned booleans.  Because `CreateIfEmpty`
holds `m.mutex` for its whole body, any number of concurrent calls execute
as some such sequence. -/
def createAll (s : SysState) (calls : List (Nat × Nat × NotifyInfo)) :
    SysState × List Bool :=
  match calls with
  | [] => (s, [])
  | c :: rest =>
      let r := CreateIfEmpty s c.1 c.2.1 c.2.2
      let rr := createAll r.1 rest
      (rr.1, r.2 :: rr.2)

/-- A concrete `NotifyInfo` used in the example runs below. -/
def wInfo : NotifyInfo :=
  { Title := "t", UserID := "u", GuildID := "g", ChannelID := "chan1" }

/-- A `NotifyInfo` differing from `wInfo` in every field except the
channel: creates using it conflict with creates using `wInfo`. -/
def wInfo2 : NotifyInfo :=
  { Title := "other", UserID := "u2", GuildID := "g2", ChannelID := "chan1" }

/-- One `CreateIfEmpty` from the initial state: a single running Pomodoro
(duration 5, callback handle 3) on channel `chan1`. -/
def wS1 : SysState := (CreateIfEmpty initState 5 3 wInfo).1

/-- A concrete run exercising the window between timer expiry and the
removal performed by `doneInMap`: create a Pomodoro with duration 0 … -/
def cexS1 : SysState := (CreateIfEmpty initState 0 7 wInfo).1

/-- Next in the run: the timer branch has fired (`select` resolved to `completed = true`)
while `doneInMap` has not run yet … -/
def cexPom : Pomodoro := { NewPomodoro 0 0 7 wInfo with phase := PomPhase.fired true }

def cexS2 : SysState := setPom cexS1 0 cexPom

/-- Next in the run: an external `RemoveIfExists("chan1")` runs (it returns
`true` and cancels the already-fired Pomodoro) … -/
def cexS3 : SysState := (RemoveIfExists cexS2 "chan1").1

def cexPomC : Pomodoro := cexPom.Cancel

def cexPomR : Pomodoro := { cexPomC with phase := PomPhase.removedFromMap true }

/-- Next in the run: `doneInMap` runs — its own `RemoveIfExists` call (a no-op now). -/
def cexS4 : SysState :=
  (RemoveIfExists (setPom cexS3 0 cexPomR) cexPomC.notifyInfo.ChannelID).1

/-- Finally the callback of the caller runs, and it reports
`completed = true` even though `RemoveIfExists` had returned `true`. -/
def cexS5 : SysState :=
  pushEvent (setPom cexS4 0 { cexPomR with phase := PomPhase.done true })
    ⟨0, cexPomR.cbId, cexPomR.notifyInfo, true, cexS4.time⟩

/-! ### Association-list lemmas for the channel map -/

theorem lookupKey_mem : ∀ {m : List (String × Nat)} {k : String} {pid : Nat},
    lookupKey m k = some pid → (k, pid) ∈ m := by
  intro m
  induction m with
  | nil => intro k pid h; simp [lookupKey] at h
  | cons e rest ih =>
      intro k pid h
      simp only [lookupKey] at h
      by_cases he : e.1 = k
      · rw [if_pos he] at h
        injection h with h
        have hkp : (k, pid) = e := by rw [← he, ← h]
        rw [hkp]
        exact List.mem_cons_self _ _
      · rw [if_neg he] at h
        exact List.mem_cons_of_mem _ (ih h)

theorem lookupKey_none_not_mem : ∀ {m : List (String × Nat)} {k : String},
    lookupKey m k = none → ∀ pid, (k, pid) ∉ m := by
  intro m
  induction m with
  | nil => intro k _ pid hm; simp at hm
  | cons e rest ih =>
      intro k h pid hm
      simp only [lookupKey] at h
      by_cases he : e.1 = k
      · rw [if_pos he] at h; exact Option.noConfusion h
      · rw [if_neg he] at h
        rcases List.mem_cons.mp hm with hm | hm
        · exact he (by rw [← hm])
        · exact ih h pid hm

theorem lookupKey_none_of_not_mem_keys : ∀ {m : List (String × Nat)} {k : String},
    k ∉ m.map Prod.fst → lookupKey m k = none := by
  intro m
  induction m with
  | nil => intro k _; rfl
  | cons e rest ih =>
      intro k h
      simp only [List.map_cons, List.mem_cons] at h
      push_neg at h
      simp only [lookupKey]
      rw [if_neg (fun he => h.1 he.symm)]
      exact ih h.2

theorem not_mem_keys_of_lookupKey_none : ∀ {m : List (String × Nat)} {k : String},
    lookupKey m k = none → k ∉ m.map Prod.fst := by
  intro m
  induction m with
  | nil => intro k _ hm; simp at hm
  | cons e rest ih =>
      intro k h hm
      simp only [lookupKey] at h
      by_cases he : e.1 = k
      · rw [if_pos he] at h; exact Option.noConfusion h
      · rw [if_neg he] at h
        rcases List.mem_cons.mp hm with hm | hm
        · exact he hm.symm
        · exact ih h hm

theorem mem_eraseKey : ∀ {m : List (String × Nat)} {k : String} {p : String × Nat},
    p ∈ eraseKey m k ↔ p ∈ m ∧ p.1 ≠ k := by
  intro m
  induction m with
  | nil => intro k p; simp [eraseKey]
  | cons e rest ih =>
      intro k p
      simp only [eraseKey]
      by_cases he : e.1 = k
      · rw [if_pos he]
        constructor
        · intro h
          exact ⟨List.mem_cons_of_mem _ (ih.mp h).1, (ih.mp h).2⟩
        · intro ⟨hm, hp⟩
          rcases List.mem_cons.mp hm with hm | hm
          · exact absurd (hm ▸ he) hp
          · exact ih.mpr ⟨hm, hp⟩
      · rw [if_neg he]
        constructor
        · intro h
          rcases List.mem_cons.mp h with h | h
          · exact ⟨h ▸ List.mem_cons_self _ _, h ▸ he⟩
          · exact ⟨List.mem_cons_of_mem _ (ih.mp h).1, (ih.mp h).2⟩
        · intro ⟨hm, hp⟩
          rcases List.mem_cons.mp hm with hm | hm
          · exact hm ▸ List.mem_cons_self _ _
          · exact List.mem_cons_of_mem _ (ih.mpr ⟨hm, hp⟩)

theorem eraseKey_sublist : ∀ (m : List (String × Nat)) (k : String),
    List.Sublist (eraseKey m k) m := by
  intro m k
  induction m with
  | nil => simp [eraseKey]
  | cons e rest ih =>
      simp only [eraseKey]
      by_cases he : e.1 = k
      · rw [if_pos he]; exact ih.cons e
      · rw [if_neg he]; exact ih.cons₂ e

theorem eraseKey_keys_nodup {m : List (String × Nat)} {k : String}
    (h : (m.map Prod.fst).Nodup) : ((eraseKey m k).map Prod.fst).Nodup :=
  h.sublist ((eraseKey_sublist m k).map Prod.fst)

theorem mem_lookupKey_of_nodup : ∀ {m : List (String × Nat)} {k : String} {pid : Nat},
    (m.map Prod.fst).Nodup → (k, pid) ∈ m → lookupKey m k = some pid := by
  intro m
  induction m with
  | nil => intro k pid _ hm; simp at hm
  | cons e rest ih =>
      intro k pid hnd hm
      simp only [List.map_cons, List.nodup_cons] at hnd
      simp only [lookupKey]
      rcases List.mem_cons.mp hm with hm | hm
      · rw [if_pos (by rw [← hm])]
        rw [← hm]
      · rw [if_neg ?_]
        · exact ih hnd.2 hm
        · intro he
          exact hnd.1 (he ▸ List.mem_map_of_mem Prod.fst hm)

theorem eraseKey_of_not_mem_keys : ∀ {m : List (String × Nat)} {k : String},
    k ∉ m.map Prod.fst → eraseKey m k = m := by
  intro m
  induction m with
  | nil => intro k _; rfl
  | cons e rest ih =>
      intro k h
      simp only [List.map_cons, List.mem_cons] at h
      push_neg at h
      simp only [eraseKey]
      rw [if_neg (fun he => h.1 he.symm)]
      rw [ih h.2]

theorem eraseKey_length : ∀ {m : List (String × Nat)} {k : String} {pid : Nat},
    (m.map Prod.fst).Nodup → lookupKey m k = some pid →
    (eraseKey m k).length + 1 = m.length := by
  intro m
  induction m with
  | nil => intro k pid _ h; simp [lookupKey] at h
  | cons e rest ih =>
      intro k pid hnd h
      simp only [List.map_cons, List.nodup_cons] at hnd
      simp only [lookupKey] at h
      simp only [eraseKey]
      by_cases he : e.1 = k
      · rw [if_pos he]
        rw [eraseKey_of_not_mem_keys (he ▸ hnd.1)]
        simp
      · rw [if_neg he] at h ⊢
        simp only [List.length_cons]
        rw [ih hnd.2 h]

theorem lookupKey_eraseKey_self : ∀ (m : List (String × Nat)) (k : String),
    lookupKey (eraseKey m k) k = none := by
  intro m k
  induction m with
  | nil => rfl
  | cons e rest ih =>
      simp only [eraseKey]
      by_cases he : e.1 = k
      · rw [if_pos he]; exact ih
      · rw [if_neg he]
        simp only [lookupKey]
        rw [if_neg he]
        exact ih

theorem lookupKey_eraseKey_ne : ∀ (m : List (String × Nat)) {k k2 : String},
    k2 ≠ k → lookupKey (eraseKey m k) k2 = lookupKey m k2 := by
  intro m k k2 hne
  induction m with
  | nil => rfl
  | cons e rest ih =>
      simp only [eraseKey]
      by_cases he : e.1 = k
      · rw [if_pos he]
        rw [ih]
        simp only [lookupKey]
        rw [if_neg (fun h2 => hne (by rw [← h2, he]))]
      · rw [if_neg he]
        simp only [lookupKey]
        by_cases h2 : e.1 = k2
        · rw [if_pos h2, if_pos h2]
        · rw [if_neg h2, if_neg h2]
          exact ih

/-! ### Basic facts about `Cancel`, `setPom`, and the two map operations -/

@[simp] theorem Cancel_phase (pom : Pomodoro) : pom.Cancel.phase = pom.phase := by
  unfold Pomodoro.Cancel; split <;> rfl

@[simp] theorem Cancel_workDuration (pom : Pomodoro) :
    pom.Cancel.workDuration = pom.workDuration := by
  unfold Pomodoro.Cancel; split <;> rfl

@[simp] theorem Cancel_cbId (pom : Pomodoro) : pom.Cancel.cbId = pom.cbId := by
  unfold Pomodoro.Cancel; split <;> rfl

@[simp] theorem Cancel_notifyInfo (pom : Pomodoro) :
    pom.Cancel.notifyInfo = pom.notifyInfo := by
  unfold Pomodoro.Cancel; split <;> rfl

@[simp] theorem Cancel_createdAt (pom : Pomodoro) :
    pom.Cancel.createdAt = pom.createdAt := by
  unfold Pomodoro.Cancel; split <;> rfl

/-- Cancelling keeps the channel / once pair well-formed: it cannot panic and
keeps the correspondence of the once flag with the closed channel. -/
theorem Cancel_onceChan {pom : Pomodoro}
    (h1 : pom.cancelChan ≠ ChanState.panicked)
    (h2 : pom.cancelOnceDone = true ↔ pom.cancelChan = ChanState.closed) :
    pom.Cancel.cancelChan ≠ ChanState.panicked ∧
      (pom.Cancel.cancelOnceDone = true ↔ pom.Cancel.cancelChan = ChanState.closed) := by
  unfold Pomodoro.Cancel
  by_cases hd : pom.cancelOnceDone
  · rw [if_pos hd]
    exact ⟨h1, h2⟩
  · rw [if_neg hd]
    have hop : pom.cancelChan = ChanState.opened := by
      cases hc : pom.cancelChan
      · rfl
      · exact absurd (h2.mpr hc) hd
      · exact absurd hc h1
    simp [hop, closeChan]

@[simp] theorem setPom_time (s : SysState) (pid : Nat) (pom : Pomodoro) :
    (setPom s pid pom).time = s.time := rfl

@[simp] theorem setPom_nextId (s : SysState) (pid : Nat) (pom : Pomodoro) :
    (setPom s pid pom).nextId = s.nextId := rfl

@[simp] theorem setPom_channelToPom (s : SysState) (pid : Nat) (pom : Pomodoro) :
    (setPom s pid pom).channelToPom = s.channelToPom := rfl

@[simp] theorem setPom_cbLog (s : SysState) (pid : Nat) (pom : Pomodoro) :
    (setPom s pid pom).cbLog = s.cbLog := rfl

theorem setPom_poms_self (s : SysState) (pid : Nat) (pom : Pomodoro) :
    (setPom s pid pom).poms pid = some pom := by simp [setPom]

theorem setPom_poms_ne (s : SysState) (pid : Nat) (pom : Pomodoro) {q : Nat}
    (h : q ≠ pid) : (setPom s pid pom).poms q = s.poms q := by simp [setPom, h]

theorem removeIfExists_of_none {s : SysState} {ch : String}
    (h : lookupKey s.channelToPom ch = none) : RemoveIfExists s ch = (s, false) := by
  simp [RemoveIfExists, h]

theorem removeIfExists_of_some {s : SysState} {ch : String} {pid : Nat}
    (h : lookupKey s.channelToPom ch = some pid) :
    RemoveIfExists s ch = (eraseCancel s ch pid, true) := by
  simp [RemoveIfExists, h]

@[simp] theorem eraseCancel_time (s : SysState) (ch : String) (pid : Nat) :
    (eraseCancel s ch pid).time = s.time := rfl

@[simp] theorem eraseCancel_nextId (s : SysState) (ch : String) (pid : Nat) :
    (eraseCancel s ch pid).nextId = s.nextId := rfl

@[simp] theorem eraseCancel_cbLog (s : SysState) (ch : String) (pid : Nat) :
    (eraseCancel s ch pid).cbLog = s.cbLog := rfl

@[simp] theorem eraseCancel_channelToPom (s : SysState) (ch : String) (pid : Nat) :
    (eraseCancel s ch pid).channelToPom = eraseKey s.channelToPom ch := rfl

theorem eraseCancel_poms_self (s : SysState) (ch : String) (pid : Nat) :
    (eraseCancel s ch pid).poms pid = (s.poms pid).map Pomodoro.Cancel := by
  have h0 : (eraseCancel s ch pid).poms pid =
      if pid = pid then (s.poms pid).map Pomodoro.Cancel else s.poms pid := rfl
  rw [h0, if_pos rfl]

theorem eraseCancel_poms_ne (s : SysState) (ch : String) (pid : Nat) {q : Nat}
    (h : q ≠ pid) : (eraseCancel s ch pid).poms q = s.poms q := by
  have h0 : (eraseCancel s ch pid).poms q =
      if q = pid then (s.poms q).map Pomodoro.Cancel else s.poms q := rfl
  rw [h0, if_neg h]

@[simp] theorem eraseEntry_time (s : SysState) (ch : String) :
    (eraseEntry s ch).time = s.time := rfl

@[simp] theorem eraseEntry_nextId (s : SysState) (ch : String) :
    (eraseEntry s ch).nextId = s.nextId := rfl

@[simp] theorem eraseEntry_cbLog (s : SysState) (ch : String) :
    (eraseEntry s ch).cbLog = s.cbLog := rfl

@[simp] theorem eraseEntry_channelToPom (s : SysState) (ch : String) :
    (eraseEntry s ch).channelToPom = eraseKey s.channelToPom ch := rfl

@[simp] theorem eraseEntry_poms (s : SysState) (ch : String) (q : Nat) :
    (eraseEntry s ch).poms q = s.poms q := rfl

@[simp] theorem registerPom_time (s : SysState) (d cb : Nat) (n : NotifyInfo) :
    (registerPom s d cb n).time = s.time := rfl

@[simp] theorem registerPom_nextId (s : SysState) (d cb : Nat) (n : NotifyInfo) :
    (registerPom s d cb n).nextId = s.nextId + 1 := rfl

@[simp] theorem registerPom_cbLog (s : SysState) (d cb : Nat) (n : NotifyInfo) :
    (registerPom s d cb n).cbLog = s.cbLog := rfl

@[simp] theorem registerPom_channelToPom (s : SysState) (d cb : Nat) (n : NotifyInfo) :
    (registerPom s d cb n).channelToPom =
      (n.ChannelID, s.nextId) :: s.channelToPom := rfl

theorem registerPom_poms_self (s : SysState) (d cb : Nat) (n : NotifyInfo) :
    (registerPom s d cb n).poms s.nextId = some (NewPomodoro s.time d cb n) := by
  have h0 : (registerPom s d cb n).poms s.nextId =
      if s.nextId = s.nextId then some (NewPomodoro s.time d cb n)
      else s.poms s.nextId := rfl
  rw [h0, if_pos rfl]

theorem registerPom_poms_ne (s : SysState) (d cb : Nat) (n : NotifyInfo) {q : Nat}
    (h : q ≠ s.nextId) : (registerPom s d cb n).poms q = s.poms q := by
  have h0 : (registerPom s d cb n).poms q =
      if q = s.nextId then some (NewPomodoro s.time d cb n) else s.poms q := rfl
  rw [h0, if_neg h]

theorem removeIfExists_time (s : SysState) (ch : String) :
    (RemoveIfExists s ch).1.time = s.time := by
  cases h : lookupKey s.channelToPom ch
  · rw [removeIfExists_of_none h]
  · rw [removeIfExists_of_some h]; rfl

theorem removeIfExists_nextId (s : SysState) (ch : String) :
    (RemoveIfExists s ch).1.nextId = s.nextId := by
  cases h : lookupKey s.channelToPom ch
  · rw [removeIfExists_of_none h]
  · rw [removeIfExists_of_some h]; rfl

theorem removeIfExists_cbLog (s : SysState) (ch : String) :
    (RemoveIfExists s ch).1.cbLog = s.cbLog := by
  cases h : lookupKey s.channelToPom ch
  · rw [removeIfExists_of_none h]
  · rw [removeIfExists_of_some h]; rfl

theorem removeIfExists_poms (s : SysState) (ch : String) (q : Nat) :
    (RemoveIfExists s ch).1.poms q = s.poms q ∨
      (RemoveIfExists s ch).1.poms q = (s.poms q).map Pomodoro.Cancel := by
  cases h : lookupKey s.channelToPom ch with
  | none => rw [removeIfExists_of_none h]; left; rfl
  | some pid =>
      rw [removeIfExists_of_some h]
      by_cases hq : q = pid
      · right
        show (eraseCancel s ch pid).poms q = _
        rw [hq, eraseCancel_poms_self]
      · left
        show (eraseCancel s ch pid).poms q = _
        rw [eraseCancel_poms_ne s ch pid hq]

theorem createIfEmpty_of_some {s : SysState} {notify : NotifyInfo} {pid : Nat}
    (h : lookupKey s.channelToPom notify.ChannelID = some pid)
    (d cb : Nat) : CreateIfEmpty s d cb notify = (s, false) := by
  simp [CreateIfEmpty, h]

theorem createIfEmpty_of_none {s : SysState} {notify : NotifyInfo}
    (h : lookupKey s.channelToPom notify.ChannelID = none) (d cb : Nat) :
    CreateIfEmpty s d cb notify = (registerPom s d cb notify, true) := by
  simp [CreateIfEmpty, h]

theorem mem_logFor_iff {s : SysState} {pid : Nat} {e : CbEvent} :
    e ∈ logFor s pid ↔ e ∈ s.cbLog ∧ e.pomId = pid := by
  simp [logFor, List.mem_filter]

/-! ### The global invariant -/

/-- The reachability invariant of the system.  Everything downstream
(exact-once callbacks, removal-before-callback, the `Count` bookkeeping,
timer lower bounds, panic freedom of `Cancel`) is a field of, or follows
from, this invariant. -/
structure Inv (s : SysState) : Prop where
  pomsDom : ∀ pid, s.nextId ≤ pid → s.poms pid = none
  createdLe : ∀ pid pom, s.poms pid = some pom → pom.createdAt ≤ s.time
  mapKey : ∀ p, p ∈ s.channelToPom →
    ∃ pom, s.poms p.2 = some pom ∧ pom.notifyInfo.ChannelID = p.1
  mapNodup : (s.channelToPom.map Prod.fst).Nodup
  mapPhase : ∀ p pom, p ∈ s.channelToPom → s.poms p.2 = some pom →
    pom.phase = PomPhase.waiting ∨ ∃ b, pom.phase = PomPhase.fired b
  onceChan : ∀ pid pom, s.poms pid = some pom →
    pom.cancelChan ≠ ChanState.panicked ∧
      (pom.cancelOnceDone = true ↔ pom.cancelChan = ChanState.closed)
  logDone : ∀ pid pom b, s.poms pid = some pom → pom.phase = PomPhase.done b →
    ∃ t, t ≤ s.time ∧ logFor s pid = [⟨pid, pom.cbId, pom.notifyInfo, b, t⟩]
  logNotDone : ∀ pid pom, s.poms pid = some pom →
    (∀ b, pom.phase ≠ PomPhase.done b) → logFor s pid = []
  logNone : ∀ pid, s.poms pid = none → logFor s pid = []
  firedTime : ∀ pid pom, s.poms pid = some pom → phaseFlag pom.phase = some true →
    pom.createdAt + pom.workDuration ≤ s.time
  logTrueTime : ∀ e, e ∈ s.cbLog → e.completed = true →
    ∀ pom, s.poms e.pomId = some pom → pom.createdAt + pom.workDuration ≤ e.time

theorem inv_init : Inv initState := by
  constructor <;> intros <;> simp_all [initState, logFor]

/-- If a Pomodoro index is stored somewhere (has a value), it is below `nextId`. -/
theorem inv_pid_lt {s : SysState} (hI : Inv s) {pid : Nat} {pom : Pomodoro}
    (hpom : s.poms pid = some pom) : pid < s.nextId := by
  by_contra h
  rw [hI.pomsDom pid (Nat.le_of_not_lt h)] at hpom
  exact Option.noConfusion hpom

/-- A stored index occurs in the map only under the `ChannelID` of its own
`notifyInfo` (so `doneInMap` looks up the right key). -/
theorem inv_mem_key {s : SysState} (hI : Inv s) {k : String} {pid : Nat}
    {pom : Pomodoro} (hmem : (k, pid) ∈ s.channelToPom)
    (hpom : s.poms pid = some pom) : k = pom.notifyInfo.ChannelID := by
  obtain ⟨pom', hpom', hch⟩ := hI.mapKey (k, pid) hmem
  rw [hpom] at hpom'
  have hpe := Option.some.inj hpom'
  subst hpe
  exact hch.symm

/-- If the key of a Pomodoro does not currently resolve to it, the index of
that Pomodoro is absent from the whole map. -/
theorem inv_pid_not_mem {s : SysState} (hI : Inv s) {pid : Nat} {pom : Pomodoro}
    (hpom : s.poms pid = some pom)
    (h : lookupKey s.channelToPom pom.notifyInfo.ChannelID ≠ some pid) :
    ∀ k, (k, pid) ∉ s.channelToPom := by
  intro k hk
  have hkch := inv_mem_key hI hk hpom
  subst hkch
  exact h (mem_lookupKey_of_nodup hI.mapNodup hk)

theorem inv_tick {s : SysState} (hI : Inv s) : Inv { s with time := s.time + 1 } := by
  refine ⟨hI.pomsDom, ?_, hI.mapKey, hI.mapNodup, hI.mapPhase, hI.onceChan, ?_,
    hI.logNotDone, hI.logNone, ?_, hI.logTrueTime⟩
  · intro pid pom h
    exact le_trans (hI.createdLe pid pom h) (Nat.le_succ _)
  · intro pid pom b h hb
    obtain ⟨t, ht, hl⟩ := hI.logDone pid pom b h hb
    exact ⟨t, le_trans ht (Nat.le_succ _), hl⟩
  · intro pid pom h hf
    exact le_trans (hI.firedTime pid pom h hf) (Nat.le_succ _)

/-- Changing only the phase of one Pomodoro, to a non-`done` phase that is
still legal for map entries, preserves the invariant.  This covers both
branches of the `select` in `performPom`. -/
theorem inv_updatePhase {s : SysState} {pid : Nat} {pom : Pomodoro} {ph : PomPhase}
    (hI : Inv s) (hpom : s.poms pid = some pom)
    (hOldNotDone : ∀ b, pom.phase ≠ PomPhase.done b)
    (hNewNotDone : ∀ b, ph ≠ PomPhase.done b)
    (hMapOk : ph = PomPhase.waiting ∨ ∃ b, ph = PomPhase.fired b)
    (hFlagTime : phaseFlag ph = some true → pom.createdAt + pom.workDuration ≤ s.time) :
    Inv (setPom s pid { pom with phase := ph }) := by
  have hlogpid : logFor s pid = [] := hI.logNotDone pid pom hpom hOldNotDone
  constructor
  · -- pomsDom
    intro q hq
    have hne : q ≠ pid := by
      intro h
      subst h
      rw [hI.pomsDom q hq] at hpom
      exact Option.noConfusion hpom
    rw [setPom_poms_ne _ _ _ hne]
    exact hI.pomsDom q hq
  · -- createdLe
    intro q pom' h
    by_cases hq : q = pid
    · subst hq
      rw [setPom_poms_self] at h
      rw [← Option.some.inj h]
      exact hI.createdLe q pom hpom
    · rw [setPom_poms_ne _ _ _ hq] at h
      exact hI.createdLe q pom' h
  · -- mapKey
    intro p hp
    obtain ⟨pom', hpom', hch⟩ := hI.mapKey p hp
    by_cases hq : p.2 = pid
    · rw [hq, hpom] at hpom'
      refine ⟨{ pom with phase := ph }, ?_, ?_⟩
      · rw [hq]; exact setPom_poms_self s pid _
      · rw [← Option.some.inj hpom'] at hch
        exact hch
    · exact ⟨pom', by rw [setPom_poms_ne _ _ _ hq]; exact hpom', hch⟩
  · -- mapNodup
    exact hI.mapNodup
  · -- mapPhase
    intro p pom' hp h
    by_cases hq : p.2 = pid
    · rw [hq, setPom_poms_self] at h
      rw [← Option.some.inj h]
      exact hMapOk
    · rw [setPom_poms_ne _ _ _ hq] at h
      exact hI.mapPhase p pom' hp h
  · -- onceChan
    intro q pom' h
    by_cases hq : q = pid
    · rw [hq, setPom_poms_self] at h
      rw [← Option.some.inj h]
      exact hI.onceChan pid pom hpom
    · rw [setPom_poms_ne _ _ _ hq] at h
      exact hI.onceChan q pom' h
  · -- logDone
    intro q pom' b h hb
    by_cases hq : q = pid
    · rw [hq, setPom_poms_self] at h
      rw [← Option.some.inj h] at hb
      exact absurd hb (hNewNotDone b)
    · rw [setPom_poms_ne _ _ _ hq] at h
      exact hI.logDone q pom' b h hb
  · -- logNotDone
    intro q pom' h hnd
    by_cases hq : q = pid
    · rw [hq]; exact hlogpid
    · rw [setPom_poms_ne _ _ _ hq] at h
      exact hI.logNotDone q pom' h hnd
  · -- logNone
    intro q h
    by_cases hq : q = pid
    · rw [hq, setPom_poms_self] at h
      exact Option.noConfusion h
    · rw [setPom_poms_ne _ _ _ hq] at h
      exact hI.logNone q h
  · -- firedTime
    intro q pom' h hf
    by_cases hq : q = pid
    · rw [hq, setPom_poms_self] at h
      have hpe := Option.some.inj h
      subst hpe
      exact hFlagTime hf
    · rw [setPom_poms_ne _ _ _ hq] at h
      exact hI.firedTime q pom' h hf
  · -- logTrueTime
    intro e he hc pom' h
    by_cases hq : e.pomId = pid
    · exfalso
      have : e ∈ logFor s pid := mem_logFor_iff.mpr ⟨he, hq⟩
      rw [hlogpid] at this
      exact List.not_mem_nil e this
    · rw [setPom_poms_ne _ _ _ hq] at h
      exact hI.logTrueTime e he hc pom' h

@[simp] theorem pushEvent_poms (s : SysState) (ev : CbEvent) (q : Nat) :
    (pushEvent s ev).poms q = s.poms q := rfl

@[simp] theorem pushEvent_time (s : SysState) (ev : CbEvent) :
    (pushEvent s ev).time = s.time := rfl

@[simp] theorem pushEvent_nextId (s : SysState) (ev : CbEvent) :
    (pushEvent s ev).nextId = s.nextId := rfl

@[simp] theorem pushEvent_channelToPom (s : SysState) (ev : CbEvent) :
    (pushEvent s ev).channelToPom = s.channelToPom := rfl

@[simp] theorem pushEvent_cbLog (s : SysState) (ev : CbEvent) :
    (pushEvent s ev).cbLog = s.cbLog ++ [ev] := rfl

theorem logFor_pushEvent (s : SysState) (ev : CbEvent) (pid : Nat) :
    logFor (pushEvent s ev) pid =
      logFor s pid ++ if ev.pomId = pid then [ev] else [] := by
  simp only [logFor, pushEvent_cbLog, List.filter_append]
  congr 1
  by_cases hq : ev.pomId = pid <;> simp [hq]

/-- The final half of `doneInMap`: invoking the callback of the caller
(recording it in the log and moving the phase to `done`) preserves the
invariant. -/
theorem inv_cbUser {s : SysState} {pid : Nat} {pom : Pomodoro} {b : Bool}
    (hI : Inv s) (hpom : s.poms pid = some pom)
    (hphase : pom.phase = PomPhase.removedFromMap b) :
    Inv (pushEvent (setPom s pid { pom with phase := PomPhase.done b })
      ⟨pid, pom.cbId, pom.notifyInfo, b, s.time⟩) := by
  have hOldNotDone : ∀ b', pom.phase ≠ PomPhase.done b' := by
    intro b' h; rw [hphase] at h; exact PomPhase.noConfusion h
  have hlogpid : logFor s pid = [] := hI.logNotDone pid pom hpom hOldNotDone
  have hlogsetpom : ∀ q, logFor (setPom s pid { pom with phase := PomPhase.done b }) q =
      logFor s q := fun _ => rfl
  have hlog : ∀ q, logFor (pushEvent (setPom s pid { pom with phase := PomPhase.done b })
      ⟨pid, pom.cbId, pom.notifyInfo, b, s.time⟩) q =
      logFor s q ++
        if pid = q then [(⟨pid, pom.cbId, pom.notifyInfo, b, s.time⟩ : CbEvent)] else [] := by
    intro q
    rw [logFor_pushEvent, hlogsetpom]
  have hpidnotmem : ∀ p, p ∈ s.channelToPom → p.2 ≠ pid := by
    intro p hp hp2
    rcases hI.mapPhase p pom hp (by rw [hp2]; exact hpom) with hw | ⟨b', hb'⟩
    · rw [hphase] at hw; exact PomPhase.noConfusion hw
    · rw [hphase] at hb'; exact PomPhase.noConfusion hb'
  constructor
  · -- pomsDom
    intro q hq
    have hne : q ≠ pid := by
      intro h
      subst h
      rw [hI.pomsDom q hq] at hpom
      exact Option.noConfusion hpom
    rw [pushEvent_poms, setPom_poms_ne _ _ _ hne]
    exact hI.pomsDom q hq
  · -- createdLe
    intro q pom' h
    rw [pushEvent_poms] at h
    by_cases hq : q = pid
    · subst hq
      rw [setPom_poms_self] at h
      have hpe := Option.some.inj h
      subst hpe
      exact hI.createdLe q pom hpom
    · rw [setPom_poms_ne _ _ _ hq] at h
      exact hI.createdLe q pom' h
  · -- mapKey
    intro p hp
    have hp2 : p.2 ≠ pid := hpidnotmem p hp
    obtain ⟨pom', hpom', hch⟩ := hI.mapKey p hp
    refine ⟨pom', ?_, hch⟩
    rw [pushEvent_poms, setPom_poms_ne _ _ _ hp2]
    exact hpom'
  · -- mapNodup
    exact hI.mapNodup
  · -- mapPhase
    intro p pom' hp h
    have hp2 : p.2 ≠ pid := hpidnotmem p hp
    rw [pushEvent_poms, setPom_poms_ne _ _ _ hp2] at h
    exact hI.mapPhase p pom' hp h
  · -- onceChan
    intro q pom' h
    rw [pushEvent_poms] at h
    by_cases hq : q = pid
    · subst hq
      rw [setPom_poms_self] at h
      have hpe := Option.some.inj h
      subst hpe
      exact hI.onceChan q pom hpom
    · rw [setPom_poms_ne _ _ _ hq] at h
      exact hI.onceChan q pom' h
  · -- logDone
    intro q pom' b' h hb
    rw [pushEvent_poms] at h
    by_cases hq : q = pid
    · subst hq
      rw [setPom_poms_self] at h
      have hpe := Option.some.inj h
      subst hpe
      have hb' : b' = b := PomPhase.done.inj hb.symm
      subst hb'
      refine ⟨s.time, le_refl _, ?_⟩
      rw [hlog q, hlogpid, if_pos rfl]
      rfl
    · rw [setPom_poms_ne _ _ _ hq] at h
      obtain ⟨t, ht, hl⟩ := hI.logDone q pom' b' h hb
      refine ⟨t, ht, ?_⟩
      rw [hlog q, hl, if_neg (fun hpq => hq hpq.symm)]
      simp
  · -- logNotDone
    intro q pom' h hnd
    rw [pushEvent_poms] at h
    by_cases hq : q = pid
    · subst hq
      rw [setPom_poms_self] at h
      have hpe := Option.some.inj h
      subst hpe
      exact absurd rfl (hnd b)
    · rw [setPom_poms_ne _ _ _ hq] at h
      rw [hlog q, hI.logNotDone q pom' h hnd, if_neg (fun hpq => hq hpq.symm)]
      rfl
  · -- logNone
    intro q h
    rw [pushEvent_poms] at h
    by_cases hq : q = pid
    · subst hq
      rw [setPom_poms_self] at h
      exact Option.noConfusion h
    · rw [setPom_poms_ne _ _ _ hq] at h
      rw [hlog q, hI.logNone q h, if_neg (fun hpq => hq hpq.symm)]
      rfl
  · -- firedTime
    intro q pom' h hf
    rw [pushEvent_poms] at h
    by_cases hq : q = pid
    · subst hq
      rw [setPom_poms_self] at h
      have hpe := Option.some.inj h
      subst hpe
      refine hI.firedTime q pom hpom ?_
      rw [hphase]
      exact hf
    · rw [setPom_poms_ne _ _ _ hq] at h
      exact hI.firedTime q pom' h hf
  · -- logTrueTime
    intro e he hc pom' h
    rw [pushEvent_cbLog] at he
    rw [pushEvent_poms] at h
    rcases List.mem_append.mp he with he | he
    · by_cases hq : e.pomId = pid
      · exfalso
        have : e ∈ logFor s pid := mem_logFor_iff.mpr ⟨he, hq⟩
        rw [hlogpid] at this
        exact List.not_mem_nil e this
      · rw [setPom_poms_ne _ _ _ hq] at h
        exact hI.logTrueTime e he hc pom' h
    · have hev := List.mem_singleton.mp he
      subst hev
      rw [setPom_poms_self] at h
      have hpe := Option.some.inj h
      subst hpe
      refine hI.firedTime pid pom hpom ?_
      rw [hphase]
      have hb : b = true := hc
      rw [hb]
      rfl

/-- The success branch of `CreateIfEmpty` preserves the invariant. -/
theorem inv_registerPom {s : SysState} (hI : Inv s) {notify : NotifyInfo} (d cb : Nat)
    (h : lookupKey s.channelToPom notify.ChannelID = none) :
    Inv (registerPom s d cb notify) := by
  have hkeys : notify.ChannelID ∉ s.channelToPom.map Prod.fst :=
    not_mem_keys_of_lookupKey_none h
  have hfresh : s.poms s.nextId = none := hI.pomsDom s.nextId (le_refl _)
  have hlogfresh : logFor s s.nextId = [] := hI.logNone s.nextId hfresh
  have hmemne : ∀ p, p ∈ s.channelToPom → p.2 ≠ s.nextId := by
    intro p hp hp2
    obtain ⟨pom', hpom', _⟩ := hI.mapKey p hp
    rw [hp2, hfresh] at hpom'
    exact Option.noConfusion hpom'
  constructor
  · -- pomsDom
    intro q hq
    rw [registerPom_nextId] at hq
    have hne : q ≠ s.nextId := by omega
    rw [registerPom_poms_ne s d cb notify hne]
    exact hI.pomsDom q (by omega)
  · -- createdLe
    intro q pom' hq
    by_cases hqn : q = s.nextId
    · subst hqn
      rw [registerPom_poms_self] at hq
      have hpe := Option.some.inj hq
      subst hpe
      exact le_refl s.time
    · rw [registerPom_poms_ne s d cb notify hqn] at hq
      exact hI.createdLe q pom' hq
  · -- mapKey
    intro p hp
    rw [registerPom_channelToPom] at hp
    rcases List.mem_cons.mp hp with hp | hp
    · subst hp
      exact ⟨NewPomodoro s.time d cb notify, registerPom_poms_self s d cb notify, rfl⟩
    · have hne := hmemne p hp
      obtain ⟨pom', hpom', hch⟩ := hI.mapKey p hp
      exact ⟨pom', by rw [registerPom_poms_ne s d cb notify hne]; exact hpom', hch⟩
  · -- mapNodup
    rw [registerPom_channelToPom, List.map_cons]
    exact List.nodup_cons.mpr ⟨hkeys, hI.mapNodup⟩
  · -- mapPhase
    intro p pom' hp hpom'
    rw [registerPom_channelToPom] at hp
    rcases List.mem_cons.mp hp with hp | hp
    · subst hp
      have hpe := Option.some.inj
        (hpom'.symm.trans (registerPom_poms_self s d cb notify))
      rw [hpe]
      left
      rfl
    · have hne := hmemne p hp
      rw [registerPom_poms_ne s d cb notify hne] at hpom'
      exact hI.mapPhase p pom' hp hpom'
  · -- onceChan
    intro q pom' hq
    by_cases hqn : q = s.nextId
    · subst hqn
      rw [registerPom_poms_self] at hq
      have hpe := Option.some.inj hq
      subst hpe
      exact ⟨fun hco => ChanState.noConfusion hco,
        fun hfa => Bool.noConfusion hfa, fun hcl => ChanState.noConfusion hcl⟩
    · rw [registerPom_poms_ne s d cb notify hqn] at hq
      exact hI.onceChan q pom' hq
  · -- logDone
    intro q pom' b hq hb
    by_cases hqn : q = s.nextId
    · subst hqn
      rw [registerPom_poms_self] at hq
      have hpe := Option.some.inj hq
      subst hpe
      exact PomPhase.noConfusion hb
    · rw [registerPom_poms_ne s d cb notify hqn] at hq
      obtain ⟨t, ht, hl⟩ := hI.logDone q pom' b hq hb
      exact ⟨t, ht, hl⟩
  · -- logNotDone
    intro q pom' hq hnd
    by_cases hqn : q = s.nextId
    · subst hqn
      exact hlogfresh
    · rw [registerPom_poms_ne s d cb notify hqn] at hq
      exact hI.logNotDone q pom' hq hnd
  · -- logNone
    intro q hq
    by_cases hqn : q = s.nextId
    · subst hqn
      rw [registerPom_poms_self] at hq
      exact Option.noConfusion hq
    · rw [registerPom_poms_ne s d cb notify hqn] at hq
      exact hI.logNone q hq
  · -- firedTime
    intro q pom' hq hf
    by_cases hqn : q = s.nextId
    · subst hqn
      rw [registerPom_poms_self] at hq
      have hpe := Option.some.inj hq
      subst hpe
      exact Option.noConfusion hf
    · rw [registerPom_poms_ne s d cb notify hqn] at hq
      exact hI.firedTime q pom' hq hf
  · -- logTrueTime
    intro e he hc pom' hpom'
    by_cases hqn : e.pomId = s.nextId
    · exfalso
      have hin : e ∈ logFor s s.nextId := mem_logFor_iff.mpr ⟨he, hqn⟩
      rw [hlogfresh] at hin
      exact List.not_mem_nil e hin
    · rw [registerPom_poms_ne s d cb notify hqn] at hpom'
      exact hI.logTrueTime e he hc pom' hpom'

theorem mapCancel_eq_some {o : Option Pomodoro} {pom' : Pomodoro}
    (h : o.map Pomodoro.Cancel = some pom') :
    ∃ pom0, o = some pom0 ∧ pom' = pom0.Cancel := by
  cases o with
  | none => exact Option.noConfusion h
  | some pom0 => exact ⟨pom0, rfl, (Option.some.inj h).symm⟩

/-- The success branch of `RemoveIfExists` preserves the invariant. -/
theorem inv_eraseCancel {s : SysState} (hI : Inv s) {ch : String} {pid : Nat}
    (h : lookupKey s.channelToPom ch = some pid) :
    Inv (eraseCancel s ch pid) := by
  constructor
  · -- pomsDom
    intro q hq
    rw [eraseCancel_nextId] at hq
    have hn := hI.pomsDom q hq
    by_cases hqp : q = pid
    · subst hqp
      rw [eraseCancel_poms_self, hn]
      rfl
    · rw [eraseCancel_poms_ne s ch pid hqp]
      exact hn
  · -- createdLe
    intro q pom' hq
    by_cases hqp : q = pid
    · subst hqp
      rw [eraseCancel_poms_self] at hq
      obtain ⟨pom0, hsp, hpe⟩ := mapCancel_eq_some hq
      subst hpe
      rw [Cancel_createdAt]
      exact hI.createdLe q pom0 hsp
    · rw [eraseCancel_poms_ne s ch pid hqp] at hq
      exact hI.createdLe q pom' hq
  · -- mapKey
    intro p hp
    rw [eraseCancel_channelToPom] at hp
    obtain ⟨hpm, _⟩ := mem_eraseKey.mp hp
    obtain ⟨pom', hpom', hch⟩ := hI.mapKey p hpm
    by_cases hqp : p.2 = pid
    · refine ⟨pom'.Cancel, ?_, ?_⟩
      · rw [hqp, eraseCancel_poms_self, ← hqp, hpom']
        rfl
      · rw [Cancel_notifyInfo]
        exact hch
    · refine ⟨pom', ?_, hch⟩
      rw [eraseCancel_poms_ne s ch pid hqp]
      exact hpom'
  · -- mapNodup
    rw [eraseCancel_channelToPom]
    exact eraseKey_keys_nodup hI.mapNodup
  · -- mapPhase
    intro p pom' hp hpom'
    rw [eraseCancel_channelToPom] at hp
    obtain ⟨hpm, _⟩ := mem_eraseKey.mp hp
    by_cases hqp : p.2 = pid
    · rw [hqp, eraseCancel_poms_self] at hpom'
      obtain ⟨pom0, hsp, hpe⟩ := mapCancel_eq_some hpom'
      subst hpe
      rw [Cancel_phase]
      exact hI.mapPhase p pom0 hpm (by rw [hqp]; exact hsp)
    · rw [eraseCancel_poms_ne s ch pid hqp] at hpom'
      exact hI.mapPhase p pom' hpm hpom'
  · -- onceChan
    intro q pom' hq
    by_cases hqp : q = pid
    · subst hqp
      rw [eraseCancel_poms_self] at hq
      obtain ⟨pom0, hsp, hpe⟩ := mapCancel_eq_some hq
      subst hpe
      obtain ⟨h1, h2⟩ := hI.onceChan q pom0 hsp
      exact Cancel_onceChan h1 h2
    · rw [eraseCancel_poms_ne s ch pid hqp] at hq
      exact hI.onceChan q pom' hq
  · -- logDone
    intro q pom' b hq hb
    by_cases hqp : q = pid
    · subst hqp
      rw [eraseCancel_poms_self] at hq
      obtain ⟨pom0, hsp, hpe⟩ := mapCancel_eq_some hq
      subst hpe
      rw [Cancel_phase] at hb
      obtain ⟨t, ht, hl⟩ := hI.logDone q pom0 b hsp hb
      refine ⟨t, ht, ?_⟩
      rw [Cancel_cbId, Cancel_notifyInfo]
      exact hl
    · rw [eraseCancel_poms_ne s ch pid hqp] at hq
      obtain ⟨t, ht, hl⟩ := hI.logDone q pom' b hq hb
      exact ⟨t, ht, hl⟩
  · -- logNotDone
    intro q pom' hq hnd
    by_cases hqp : q = pid
    · subst hqp
      rw [eraseCancel_poms_self] at hq
      obtain ⟨pom0, hsp, hpe⟩ := mapCancel_eq_some hq
      refine hI.logNotDone q pom0 hsp ?_
      intro b hb
      refine hnd b ?_
      rw [hpe, Cancel_phase]
      exact hb
    · rw [eraseCancel_poms_ne s ch pid hqp] at hq
      exact hI.logNotDone q pom' hq hnd
  · -- logNone
    intro q hq
    by_cases hqp : q = pid
    · subst hqp
      rw [eraseCancel_poms_self] at hq
      have hsp : s.poms q = none := by
        cases hc : s.poms q with
        | none => rfl
        | some pom0 => rw [hc] at hq; exact Option.noConfusion hq
      exact hI.logNone q hsp
    · rw [eraseCancel_poms_ne s ch pid hqp] at hq
      exact hI.logNone q hq
  · -- firedTime
    intro q pom' hq hf
    by_cases hqp : q = pid
    · subst hqp
      rw [eraseCancel_poms_self] at hq
      obtain ⟨pom0, hsp, hpe⟩ := mapCancel_eq_some hq
      subst hpe
      rw [Cancel_phase] at hf
      rw [Cancel_createdAt, Cancel_workDuration]
      exact hI.firedTime q pom0 hsp hf
    · rw [eraseCancel_poms_ne s ch pid hqp] at hq
      exact hI.firedTime q pom' hq hf
  · -- logTrueTime
    intro e he hc pom' hpom'
    by_cases hqp : e.pomId = pid
    · rw [hqp, eraseCancel_poms_self] at hpom'
      obtain ⟨pom0, hsp, hpe⟩ := mapCancel_eq_some hpom'
      subst hpe
      rw [Cancel_createdAt, Cancel_workDuration]
      exact hI.logTrueTime e he hc pom0 (by rw [hqp]; exact hsp)
    · rw [eraseCancel_poms_ne s ch pid hqp] at hpom'
      exact hI.logTrueTime e he hc pom' hpom'

/-- The operation `RemoveIfExists` preserves the invariant. -/
theorem inv_removeIfExists {s : SysState} (hI : Inv s) (ch : String) :
    Inv (RemoveIfExists s ch).1 := by
  cases h : lookupKey s.channelToPom ch with
  | none => rw [removeIfExists_of_none h]; exact hI
  | some pid => rw [removeIfExists_of_some h]; exact inv_eraseCancel hI h

/-- The operation `CreateIfEmpty` preserves the invariant. -/
theorem inv_createIfEmpty {s : SysState} (hI : Inv s) (d cb : Nat)
    (notify : NotifyInfo) : Inv (CreateIfEmpty s d cb notify).1 := by
  cases h : lookupKey s.channelToPom notify.ChannelID with
  | none => rw [createIfEmpty_of_none h]; exact inv_registerPom hI d cb h
  | some pid => rw [createIfEmpty_of_some h]; exact hI

/-- Replacing the Pomodoro at an index that no map entry points to, by one
that agrees on all fields except possibly phase and cancellation state,
preserves the invariant — provided neither old nor new phase is `done`,
the new channel/once pair is well-formed, and a `true` flag is backed by
an expired timer. -/
theorem inv_replaceUnmapped {s : SysState} {pid : Nat} {pom pom2 : Pomodoro}
    (hI : Inv s) (hpom : s.poms pid = some pom)
    (hnotmem : ∀ k, (k, pid) ∉ s.channelToPom)
    (hca : pom2.createdAt = pom.createdAt)
    (honce : pom2.cancelChan ≠ ChanState.panicked ∧
      (pom2.cancelOnceDone = true ↔ pom2.cancelChan = ChanState.closed))
    (hOldNotDone : ∀ b, pom.phase ≠ PomPhase.done b)
    (hNewNotDone : ∀ b, pom2.phase ≠ PomPhase.done b)
    (hFlagTime : phaseFlag pom2.phase = some true →
      pom2.createdAt + pom2.workDuration ≤ s.time) :
    Inv (setPom s pid pom2) := by
  have hlogpid : logFor s pid = [] := hI.logNotDone pid pom hpom hOldNotDone
  have hmemne : ∀ p, p ∈ s.channelToPom → p.2 ≠ pid := by
    intro p hp hp2
    refine hnotmem p.1 ?_
    rw [← hp2]
    exact hp
  constructor
  · -- pomsDom
    intro q hq
    have hne : q ≠ pid := by
      intro hh
      subst hh
      rw [hI.pomsDom q hq] at hpom
      exact Option.noConfusion hpom
    rw [setPom_poms_ne _ _ _ hne]
    exact hI.pomsDom q hq
  · -- createdLe
    intro q pom' hq
    by_cases hqp : q = pid
    · subst hqp
      rw [setPom_poms_self] at hq
      have hpe := Option.some.inj hq
      subst hpe
      rw [hca]
      exact hI.createdLe q pom hpom
    · rw [setPom_poms_ne _ _ _ hqp] at hq
      exact hI.createdLe q pom' hq
  · -- mapKey
    intro p hp
    have hne := hmemne p hp
    obtain ⟨pom', hpom', hch⟩ := hI.mapKey p hp
    refine ⟨pom', ?_, hch⟩
    rw [setPom_poms_ne _ _ _ hne]
    exact hpom'
  · -- mapNodup
    exact hI.mapNodup
  · -- mapPhase
    intro p pom' hp hpom'
    have hne := hmemne p hp
    rw [setPom_poms_ne _ _ _ hne] at hpom'
    exact hI.mapPhase p pom' hp hpom'
  · -- onceChan
    intro q pom' hq
    by_cases hqp : q = pid
    · subst hqp
      rw [setPom_poms_self] at hq
      have hpe := Option.some.inj hq
      subst hpe
      exact honce
    · rw [setPom_poms_ne _ _ _ hqp] at hq
      exact hI.onceChan q pom' hq
  · -- logDone
    intro q pom' b hq hb
    by_cases hqp : q = pid
    · subst hqp
      rw [setPom_poms_self] at hq
      have hpe := Option.some.inj hq
      subst hpe
      exact absurd hb (hNewNotDone b)
    · rw [setPom_poms_ne _ _ _ hqp] at hq
      exact hI.logDone q pom' b hq hb
  · -- logNotDone
    intro q pom' hq hnd
    by_cases hqp : q = pid
    · subst hqp
      exact hlogpid
    · rw [setPom_poms_ne _ _ _ hqp] at hq
      exact hI.logNotDone q pom' hq hnd
  · -- logNone
    intro q hq
    by_cases hqp : q = pid
    · subst hqp
      rw [setPom_poms_self] at hq
      exact Option.noConfusion hq
    · rw [setPom_poms_ne _ _ _ hqp] at hq
      exact hI.logNone q hq
  · -- firedTime
    intro q pom' hq hf
    by_cases hqp : q = pid
    · subst hqp
      rw [setPom_poms_self] at hq
      have hpe := Option.some.inj hq
      subst hpe
      exact hFlagTime hf
    · rw [setPom_poms_ne _ _ _ hqp] at hq
      exact hI.firedTime q pom' hq hf
  · -- logTrueTime
    intro e he hc pom' hpom'
    by_cases hqp : e.pomId = pid
    · exfalso
      have hin : e ∈ logFor s pid := mem_logFor_iff.mpr ⟨he, hqp⟩
      rw [hlogpid] at hin
      exact List.not_mem_nil e hin
    · rw [setPom_poms_ne _ _ _ hqp] at hpom'
      exact hI.logTrueTime e he hc pom' hpom'

/-- Cancelling-and-erasing at `pid2` commutes with an unrelated `setPom`
at `pid`. -/
theorem eraseCancel_setPom_comm {s : SysState} {pid pid2 : Nat}
    (hne : pid ≠ pid2) (pomR : Pomodoro) (ch : String) :
    eraseCancel (setPom s pid pomR) ch pid2 =
      setPom (eraseCancel s ch pid2) pid pomR := by
  refine SysState.ext rfl rfl ?_ rfl rfl
  funext q
  by_cases h1 : q = pid
  · subst h1
    rw [eraseCancel_poms_ne _ _ _ hne, setPom_poms_self, setPom_poms_self]
  · rw [setPom_poms_ne _ _ _ h1]
    by_cases h2 : q = pid2
    · subst h2
      rw [eraseCancel_poms_self, eraseCancel_poms_self, setPom_poms_ne _ _ _ h1]
    · rw [eraseCancel_poms_ne _ _ _ h2, eraseCancel_poms_ne _ _ _ h2,
        setPom_poms_ne _ _ _ h1]

/-- Cancelling-and-erasing at the very index just overwritten by `setPom`
is the same as erasing the entry and storing the cancelled Pomodoro. -/
theorem eraseCancel_setPom_self {s : SysState} {pid : Nat}
    (pomR : Pomodoro) (ch : String) :
    eraseCancel (setPom s pid pomR) ch pid =
      setPom (eraseCancel s ch pid) pid pomR.Cancel := by
  refine SysState.ext rfl rfl ?_ rfl rfl
  funext q
  by_cases h1 : q = pid
  · subst h1
    rw [eraseCancel_poms_self, setPom_poms_self, setPom_poms_self]
    rfl
  · rw [eraseCancel_poms_ne _ _ _ h1, setPom_poms_ne _ _ _ h1,
      setPom_poms_ne _ _ _ h1, eraseCancel_poms_ne _ _ _ h1]

/-- The first half of `doneInMap` — its `m.RemoveIfExists(notif.ChannelID)`
call, performed once the `select` of this Pomodoro has fired — preserves
the invariant. -/
theorem inv_cbRemove {s : SysState} {pid : Nat} {pom : Pomodoro} {b : Bool}
    (hI : Inv s) (hpom : s.poms pid = some pom)
    (hphase : pom.phase = PomPhase.fired b) :
    Inv (RemoveIfExists
      (setPom s pid { pom with phase := PomPhase.removedFromMap b })
      pom.notifyInfo.ChannelID).1 := by
  have hOldNotDone : ∀ b', pom.phase ≠ PomPhase.done b' := by
    intro b' hb'; rw [hphase] at hb'; exact PomPhase.noConfusion hb'
  have honceOld := hI.onceChan pid pom hpom
  cases h : lookupKey s.channelToPom pom.notifyInfo.ChannelID with
  | none =>
      have h' : lookupKey
          (setPom s pid { pom with phase := PomPhase.removedFromMap b }).channelToPom
          pom.notifyInfo.ChannelID = none := h
      rw [removeIfExists_of_none h']
      refine inv_replaceUnmapped hI hpom ?_ rfl honceOld hOldNotDone ?_ ?_
      · refine inv_pid_not_mem hI hpom ?_
        rw [h]
        exact fun hh => Option.noConfusion hh
      · intro b' hb'
        exact PomPhase.noConfusion hb'
      · intro hf
        have hb : b = true := Option.some.inj hf
        refine hI.firedTime pid pom hpom ?_
        rw [hphase, hb]
        rfl
  | some pid2 =>
      have h' : lookupKey
          (setPom s pid { pom with phase := PomPhase.removedFromMap b }).channelToPom
          pom.notifyInfo.ChannelID = some pid2 := h
      rw [removeIfExists_of_some h']
      show Inv (eraseCancel
        (setPom s pid { pom with phase := PomPhase.removedFromMap b })
        pom.notifyInfo.ChannelID pid2)
      have hI2 : Inv (eraseCancel s pom.notifyInfo.ChannelID pid2) :=
        inv_eraseCancel hI h
      have hnotmem2 : ∀ k,
          (k, pid) ∉ (eraseCancel s pom.notifyInfo.ChannelID pid2).channelToPom := by
        intro k hk
        rw [eraseCancel_channelToPom] at hk
        obtain ⟨hm, hkne⟩ := mem_eraseKey.mp hk
        exact hkne (inv_mem_key hI hm hpom)
      by_cases hpp : pid2 = pid
      · subst hpp
        rw [eraseCancel_setPom_self]
        have hpom2 : (eraseCancel s pom.notifyInfo.ChannelID pid2).poms pid2 =
            some pom.Cancel := by
          rw [eraseCancel_poms_self, hpom]
          rfl
        refine inv_replaceUnmapped hI2 hpom2 hnotmem2 ?_ ?_ ?_ ?_ ?_
        · rw [Cancel_createdAt, Cancel_createdAt]
        · exact Cancel_onceChan honceOld.1 honceOld.2
        · intro b' hb'
          rw [Cancel_phase, hphase] at hb'
          exact PomPhase.noConfusion hb'
        · intro b' hb'
          rw [Cancel_phase] at hb'
          exact PomPhase.noConfusion hb'
        · intro hf
          rw [Cancel_phase] at hf
          have hb : b = true := Option.some.inj hf
          rw [Cancel_createdAt, Cancel_workDuration]
          refine hI.firedTime pid2 pom hpom ?_
          rw [hphase, hb]
          rfl
      · have hne : pid ≠ pid2 := fun hh => hpp hh.symm
        rw [eraseCancel_setPom_comm hne]
        have hpom2 : (eraseCancel s pom.notifyInfo.ChannelID pid2).poms pid =
            some pom := by
          rw [eraseCancel_poms_ne _ _ _ hne]
          exact hpom
        refine inv_replaceUnmapped hI2 hpom2 hnotmem2 rfl honceOld hOldNotDone ?_ ?_
        · intro b' hb'
          exact PomPhase.noConfusion hb'
        · intro hf
          have hb : b = true := Option.some.inj hf
          refine hI.firedTime pid pom hpom ?_
          rw [hphase, hb]
          rfl

/-- Every step of the system preserves the invariant. -/
theorem inv_step {s s' : SysState} (hI : Inv s) (hstep : Step s s') : Inv s' := by
  cases hstep with
  | tick => exact inv_tick hI
  | create d cb notify => exact inv_createIfEmpty hI d cb notify
  | remove ch => exact inv_removeIfExists hI ch
  | selectTimer pid pom hpom hphase htime =>
      refine inv_updatePhase hI hpom ?_ ?_ ?_ ?_
      · intro b hb; rw [hphase] at hb; exact PomPhase.noConfusion hb
      · intro b hb; exact PomPhase.noConfusion hb
      · right; exact ⟨true, rfl⟩
      · intro _; exact htime
  | selectCancel pid pom hpom hphase hchan =>
      refine inv_updatePhase hI hpom ?_ ?_ ?_ ?_
      · intro b hb; rw [hphase] at hb; exact PomPhase.noConfusion hb
      · intro b hb; exact PomPhase.noConfusion hb
      · right; exact ⟨false, rfl⟩
      · intro hf; exact Bool.noConfusion (Option.some.inj hf)
  | cbRemove pid pom b hpom hphase => exact inv_cbRemove hI hpom hphase
  | cbUser pid pom b hpom hphase => exact inv_cbUser hI hpom hphase

/-- The invariant transports along any execution. -/
theorem inv_rtg {s s' : SysState} (hI : Inv s)
    (h : Relation.ReflTransGen Step s s') : Inv s' := by
  induction h with
  | refl => exact hI
  | tail _ hbc ih => exact inv_step ih hbc

/-- Every reachable state satisfies the invariant. -/
theorem inv_reachable {s : SysState} (h : Reachable s) : Inv s :=
  inv_rtg inv_init h

@[simp] theorem ticks_time (s : SysState) (n : Nat) :
    (ticks s n).time = s.time + n := rfl

@[simp] theorem ticks_nextId (s : SysState) (n : Nat) :
    (ticks s n).nextId = s.nextId := rfl

@[simp] theorem ticks_poms (s : SysState) (n : Nat) (q : Nat) :
    (ticks s n).poms q = s.poms q := rfl

@[simp] theorem ticks_channelToPom (s : SysState) (n : Nat) :
    (ticks s n).channelToPom = s.channelToPom := rfl

@[simp] theorem ticks_cbLog (s : SysState) (n : Nat) :
    (ticks s n).cbLog = s.cbLog := rfl

/-- The clock can always advance by `n` units. -/
theorem rtg_ticks (s : SysState) (n : Nat) :
    Relation.ReflTransGen Step s (ticks s n) := by
  induction n with
  | zero => exact Relation.ReflTransGen.refl
  | succ n ih => exact Relation.ReflTransGen.tail ih (Step.tick (ticks s n))

/-! ### Constructing completions: every Pomodoro can run to its callback -/

/-- From phase `removedFromMap b`, one `cbUser` step delivers the callback:
the Pomodoro reaches `done b` and exactly the expected event is logged. -/
theorem removed_can_complete {s : SysState} {pid : Nat} {pom : Pomodoro} {b : Bool}
    (hpom : s.poms pid = some pom)
    (hphase : pom.phase = PomPhase.removedFromMap b) :
    ∃ s' pom', Relation.ReflTransGen Step s s' ∧
      s'.poms pid = some pom' ∧ pom'.phase = PomPhase.done b ∧
      pom'.cbId = pom.cbId ∧ pom'.notifyInfo = pom.notifyInfo ∧
      s'.cbLog = s.cbLog ++ [⟨pid, pom.cbId, pom.notifyInfo, b, s.time⟩] ∧
      s'.time = s.time := by
  refine ⟨pushEvent (setPom s pid { pom with phase := PomPhase.done b })
      ⟨pid, pom.cbId, pom.notifyInfo, b, s.time⟩,
    { pom with phase := PomPhase.done b }, ?_, ?_, rfl, rfl, rfl, rfl, rfl⟩
  · exact Relation.ReflTransGen.single (Step.cbUser s pid pom b hpom hphase)
  · exact setPom_poms_self s pid _

/-- From phase `fired b`, the `doneInMap` goroutine (removal, then the
callback of the caller) runs to completion, logging exactly the expected
event, without the clock moving. -/
theorem fired_can_complete {s : SysState} {pid : Nat} {pom : Pomodoro} {b : Bool}
    (hpom : s.poms pid = some pom) (hphase : pom.phase = PomPhase.fired b) :
    ∃ s' pom', Relation.ReflTransGen Step s s' ∧
      s'.poms pid = some pom' ∧ pom'.phase = PomPhase.done b ∧
      pom'.cbId = pom.cbId ∧ pom'.notifyInfo = pom.notifyInfo ∧
      s'.cbLog = s.cbLog ++ [⟨pid, pom.cbId, pom.notifyInfo, b, s.time⟩] ∧
      s'.time = s.time := by
  have hstep1 : Step s (RemoveIfExists
      (setPom s pid { pom with phase := PomPhase.removedFromMap b })
      pom.notifyInfo.ChannelID).1 :=
    Step.cbRemove s pid pom b hpom hphase
  have hpoms1 := removeIfExists_poms
    (setPom s pid { pom with phase := PomPhase.removedFromMap b })
    pom.notifyInfo.ChannelID pid
  rw [setPom_poms_self] at hpoms1
  have htime1 : (RemoveIfExists
      (setPom s pid { pom with phase := PomPhase.removedFromMap b })
      pom.notifyInfo.ChannelID).1.time = s.time :=
    removeIfExists_time _ _
  have hlog1 : (RemoveIfExists
      (setPom s pid { pom with phase := PomPhase.removedFromMap b })
      pom.notifyInfo.ChannelID).1.cbLog = s.cbLog :=
    removeIfExists_cbLog _ _
  rcases hpoms1 with h1 | h1
  · obtain ⟨s', pom', hr, hp, hph, hcb, hinfo, hlg, ht⟩ :=
      removed_can_complete h1 rfl
    refine ⟨s', pom', Relation.ReflTransGen.head hstep1 hr, hp, hph, hcb, hinfo, ?_, ?_⟩
    · rw [hlg, hlog1, htime1]
    · rw [ht, htime1]
  · have h1' : (RemoveIfExists
        (setPom s pid { pom with phase := PomPhase.removedFromMap b })
        pom.notifyInfo.ChannelID).1.poms pid =
        some ({ pom with phase := PomPhase.removedFromMap b }).Cancel := h1
    obtain ⟨s', pom', hr, hp, hph, hcb, hinfo, hlg, ht⟩ :=
      removed_can_complete h1' (by rw [Cancel_phase])
    refine ⟨s', pom', Relation.ReflTransGen.head hstep1 hr, hp, hph, ?_, ?_, ?_, ?_⟩
    · rw [hcb, Cancel_cbId]
    · rw [hinfo, Cancel_notifyInfo]
    · rw [hlg, hlog1, htime1, Cancel_cbId, Cancel_notifyInfo]
    · rw [ht, htime1]

/-- A waiting Pomodoro can fire its timer branch at any instant from its
deadline on: after `n` further clock units (provided the deadline has then
passed) the callback can be delivered with `completed = true`, at time
exactly `s.time + n`. -/
theorem waiting_can_fire_at {s : SysState} {pid : Nat} {pom : Pomodoro}
    (hpom : s.poms pid = some pom) (hphase : pom.phase = PomPhase.waiting)
    (n : Nat) (hn : pom.createdAt + pom.workDuration ≤ s.time + n) :
    ∃ s' pom', Relation.ReflTransGen Step s s' ∧
      s'.poms pid = some pom' ∧ pom'.phase = PomPhase.done true ∧
      pom'.cbId = pom.cbId ∧ pom'.notifyInfo = pom.notifyInfo ∧
      s'.cbLog = s.cbLog ++ [⟨pid, pom.cbId, pom.notifyInfo, true, s.time + n⟩] ∧
      s'.time = s.time + n := by
  have hpom1 : (ticks s n).poms pid = some pom := hpom
  have hstep2 : Step (ticks s n)
      (setPom (ticks s n) pid { pom with phase := PomPhase.fired true }) :=
    Step.selectTimer (ticks s n) pid pom hpom1 hphase hn
  have hpom2 : (setPom (ticks s n) pid { pom with phase := PomPhase.fired true }).poms
      pid = some { pom with phase := PomPhase.fired true } :=
    setPom_poms_self _ _ _
  obtain ⟨s', pom', hr, hp, hph, hcb, hinfo, hlg, ht⟩ :=
    fired_can_complete hpom2 rfl
  refine ⟨s', pom',
    Relation.ReflTransGen.trans (rtg_ticks s n)
      (Relation.ReflTransGen.head hstep2 hr), hp, hph, hcb, hinfo, hlg, ht⟩

/-- A waiting Pomodoro whose cancel channel is closed can take the cancel
branch immediately: the callback can be delivered with `completed = false`
at the current instant, without any clock advance. -/
theorem cancelled_can_complete {s : SysState} {pid : Nat} {pom : Pomodoro}
    (hpom : s.poms pid = some pom) (hphase : pom.phase = PomPhase.waiting)
    (hchan : pom.cancelChan = ChanState.closed) :
    ∃ s' pom', Relation.ReflTransGen Step s s' ∧
      s'.poms pid = some pom' ∧ pom'.phase = PomPhase.done false ∧
      pom'.cbId = pom.cbId ∧ pom'.notifyInfo = pom.notifyInfo ∧
      s'.cbLog = s.cbLog ++ [⟨pid, pom.cbId, pom.notifyInfo, false, s.time⟩] ∧
      s'.time = s.time := by
  have hstep1 : Step s
      (setPom s pid { pom with phase := PomPhase.fired false }) :=
    Step.selectCancel s pid pom hpom hphase hchan
  have hpom2 : (setPom s pid { pom with phase := PomPhase.fired false }).poms
      pid = some { pom with phase := PomPhase.fired false } :=
    setPom_poms_self _ _ _
  obtain ⟨s', pom', hr, hp, hph, hcb, hinfo, hlg, ht⟩ :=
    fired_can_complete hpom2 rfl
  exact ⟨s', pom', Relation.ReflTransGen.head hstep1 hr, hp, hph, hcb, hinfo, hlg, ht⟩

/-- Every live Pomodoro can run to a `done` phase (its callback delivered). -/
theorem pom_can_complete {s : SysState} {pid : Nat} {pom : Pomodoro}
    (hpom : s.poms pid = some pom) :
    ∃ s' pom', Relation.ReflTransGen Step s s' ∧
      s'.poms pid = some pom' ∧ ∃ b, pom'.phase = PomPhase.done b := by
  cases hph : pom.phase with
  | waiting =>
      obtain ⟨s', pom', hr, hp, hph', _⟩ := waiting_can_fire_at hpom hph
        (pom.createdAt + pom.workDuration) (Nat.le_add_left _ _)
      exact ⟨s', pom', hr, hp, true, hph'⟩
  | fired b =>
      obtain ⟨s', pom', hr, hp, hph', _⟩ := fired_can_complete hpom hph
      exact ⟨s', pom', hr, hp, b, hph'⟩
  | removedFromMap b =>
      obtain ⟨s', pom', hr, hp, hph', _⟩ := removed_can_complete hpom hph
      exact ⟨s', pom', hr, hp, b, hph'⟩
  | done b =>
      exact ⟨s, pom, Relation.ReflTransGen.refl, hpom, b, hph⟩

/-! ### Once the select has resolved, its outcome is fixed forever -/

theorem flag_persists_step {s s' : SysState} (hI : Inv s) (hstep : Step s s')
    {pid : Nat} {pom : Pomodoro} {b0 : Bool}
    (hpom : s.poms pid = some pom) (hflag : phaseFlag pom.phase = some b0) :
    ∃ pom', s'.poms pid = some pom' ∧ phaseFlag pom'.phase = some b0 := by
  cases hstep with
  | tick => exact ⟨pom, hpom, hflag⟩
  | create d cb notify =>
      cases h : lookupKey s.channelToPom notify.ChannelID with
      | some pid2 => rw [createIfEmpty_of_some h]; exact ⟨pom, hpom, hflag⟩
      | none =>
          rw [createIfEmpty_of_none h]
          have hne : pid ≠ s.nextId := Nat.ne_of_lt (inv_pid_lt hI hpom)
          refine ⟨pom, ?_, hflag⟩
          rw [registerPom_poms_ne s d cb notify hne]
          exact hpom
  | remove ch =>
      rcases removeIfExists_poms s ch pid with h | h
      · exact ⟨pom, by rw [h]; exact hpom, hflag⟩
      · rw [hpom] at h
        exact ⟨pom.Cancel, h, by rw [Cancel_phase]; exact hflag⟩
  | selectTimer pid2 pomX hpomX hphX htX =>
      by_cases hq : pid = pid2
      · subst hq
        rw [hpom] at hpomX
        have hpe := Option.some.inj hpomX
        rw [hpe, hphX] at hflag
        exact Option.noConfusion hflag
      · refine ⟨pom, ?_, hflag⟩
        rw [setPom_poms_ne _ _ _ hq]
        exact hpom
  | selectCancel pid2 pomX hpomX hphX hcX =>
      by_cases hq : pid = pid2
      · subst hq
        rw [hpom] at hpomX
        have hpe := Option.some.inj hpomX
        rw [hpe, hphX] at hflag
        exact Option.noConfusion hflag
      · refine ⟨pom, ?_, hflag⟩
        rw [setPom_poms_ne _ _ _ hq]
        exact hpom
  | cbRemove pid2 pomX bX hpomX hphX =>
      have hmid : ∃ pomM,
          (setPom s pid2 { pomX with phase := PomPhase.removedFromMap bX }).poms pid =
            some pomM ∧ phaseFlag pomM.phase = some b0 := by
        by_cases hq : pid = pid2
        · subst hq
          rw [hpom] at hpomX
          have hpe := Option.some.inj hpomX
          subst hpe
          refine ⟨{ pom with phase := PomPhase.removedFromMap bX }, setPom_poms_self _ _ _, ?_⟩
          rw [hphX] at hflag
          exact hflag
        · refine ⟨pom, ?_, hflag⟩
          rw [setPom_poms_ne _ _ _ hq]
          exact hpom
      obtain ⟨pomM, hpM, hfM⟩ := hmid
      rcases removeIfExists_poms
        (setPom s pid2 { pomX with phase := PomPhase.removedFromMap bX })
        pomX.notifyInfo.ChannelID pid with h | h
      · exact ⟨pomM, by rw [h]; exact hpM, hfM⟩
      · rw [hpM] at h
        exact ⟨pomM.Cancel, h, by rw [Cancel_phase]; exact hfM⟩
  | cbUser pid2 pomX bX hpomX hphX =>
      by_cases hq : pid = pid2
      · subst hq
        rw [hpom] at hpomX
        have hpe := Option.some.inj hpomX
        subst hpe
        refine ⟨{ pom with phase := PomPhase.done bX }, setPom_poms_self _ _ _, ?_⟩
        rw [hphX] at hflag
        exact hflag
      · refine ⟨pom, ?_, hflag⟩
        rw [setPom_poms_ne _ _ _ hq]
        exact hpom

theorem flag_persists_rtg {s s' : SysState} (hI : Inv s)
    (h : Relation.ReflTransGen Step s s') {pid : Nat} {pom : Pomodoro} {b0 : Bool}
    (hpom : s.poms pid = some pom) (hflag : phaseFlag pom.phase = some b0) :
    ∃ pom', s'.poms pid = some pom' ∧ phaseFlag pom'.phase = some b0 := by
  induction h with
  | refl => exact ⟨pom, hpom, hflag⟩
  | tail hab hbc ih =>
      obtain ⟨pom1, hp1, hf1⟩ := ih
      exact flag_persists_step (inv_rtg hI hab) hbc hp1 hf1

/-- In an invariant state, any logged callback of a Pomodoro whose select
resolved with flag `b0` carries exactly that flag. -/
theorem logFor_flag {s' : SysState} (hI' : Inv s') {pid : Nat} {pom' : Pomodoro}
    {b0 : Bool} (hp : s'.poms pid = some pom')
    (hf : phaseFlag pom'.phase = some b0) :
    ∀ e, e ∈ logFor s' pid → e.completed = b0 := by
  intro e he
  cases hph : pom'.phase with
  | waiting =>
      rw [hph] at hf
      exact Option.noConfusion hf
  | fired b =>
      have hl : logFor s' pid = [] := hI'.logNotDone pid pom' hp
        (by intro b' hb'; rw [hph] at hb'; exact PomPhase.noConfusion hb')
      rw [hl] at he
      exact absurd he (List.not_mem_nil e)
  | removedFromMap b =>
      have hl : logFor s' pid = [] := hI'.logNotDone pid pom' hp
        (by intro b' hb'; rw [hph] at hb'; exact PomPhase.noConfusion hb')
      rw [hl] at he
      exact absurd he (List.not_mem_nil e)
  | done b =>
      obtain ⟨t, _, hl⟩ := hI'.logDone pid pom' b hp hph
      rw [hl] at he
      have he' := List.mem_singleton.mp he
      subst he'
      rw [hph] at hf
      exact Option.some.inj hf

/-- Once a select has resolved with flag `b0`, every callback invocation of
that Pomodoro, in every possible future, reports exactly `b0`. -/
theorem flag_fixes_callback {s : SysState} (hI : Inv s) {pid : Nat}
    {pom : Pomodoro} {b0 : Bool} (hpom : s.poms pid = some pom)
    (hflag : phaseFlag pom.phase = some b0) :
    ∀ s', Relation.ReflTransGen Step s s' →
      ∀ e, e ∈ logFor s' pid → e.completed = b0 := by
  intro s' hr e he
  obtain ⟨pom', hp', hf'⟩ := flag_persists_rtg hI hr hpom hflag
  exact logFor_flag (inv_rtg hI hr) hp' hf' e he

theorem logFor_eq_append {s2 s0 : SysState} {ev : CbEvent} (pid : Nat)
    (h : s2.cbLog = s0.cbLog ++ [ev]) :
    logFor s2 pid = logFor s0 pid ++ if ev.pomId = pid then [ev] else [] := by
  simp only [logFor, h, List.filter_append]
  congr 1
  by_cases hq : ev.pomId = pid <;> simp [hq]

/-- In any invariant state a Pomodoro has at most one logged callback. -/
theorem logFor_length_le_one {s : SysState} (hI : Inv s) (pid : Nat) :
    (logFor s pid).length ≤ 1 := by
  cases hsp : s.poms pid with
  | none => rw [hI.logNone pid hsp]; simp
  | some pom =>
      cases hph : pom.phase with
      | waiting =>
          rw [hI.logNotDone pid pom hsp
            (by intro b hb; rw [hph] at hb; exact PomPhase.noConfusion hb)]
          simp
      | fired b =>
          rw [hI.logNotDone pid pom hsp
            (by intro b' hb; rw [hph] at hb; exact PomPhase.noConfusion hb)]
          simp
      | removedFromMap b =>
          rw [hI.logNotDone pid pom hsp
            (by intro b' hb; rw [hph] at hb; exact PomPhase.noConfusion hb)]
          simp
      | done b =>
          obtain ⟨t, _, hl⟩ := hI.logDone pid pom b hsp hph
          rw [hl]
          simp

/-- Every logged event belongs to a Pomodoro whose phase is `done`, and
carries verbatim that Pomodoro's callback handle, `NotifyInfo` and flag. -/
theorem log_event_matches {s : SysState} (hI : Inv s) {e : CbEvent}
    (he : e ∈ s.cbLog) :
    ∃ pom b t, s.poms e.pomId = some pom ∧ pom.phase = PomPhase.done b ∧
      e = ⟨e.pomId, pom.cbId, pom.notifyInfo, b, t⟩ := by
  have hin : e ∈ logFor s e.pomId := mem_logFor_iff.mpr ⟨he, rfl⟩
  cases hsp : s.poms e.pomId with
  | none =>
      exfalso
      rw [hI.logNone _ hsp] at hin
      exact List.not_mem_nil e hin
  | some pom =>
      cases hph : pom.phase with
      | waiting =>
          exfalso
          rw [hI.logNotDone _ pom hsp
            (by intro b hb; rw [hph] at hb; exact PomPhase.noConfusion hb)] at hin
          exact List.not_mem_nil e hin
      | fired b =>
          exfalso
          rw [hI.logNotDone _ pom hsp
            (by intro b' hb; rw [hph] at hb; exact PomPhase.noConfusion hb)] at hin
          exact List.not_mem_nil e hin
      | removedFromMap b =>
          exfalso
          rw [hI.logNotDone _ pom hsp
            (by intro b' hb; rw [hph] at hb; exact PomPhase.noConfusion hb)] at hin
          exact List.not_mem_nil e hin
      | done b =>
          obtain ⟨t, _, hl⟩ := hI.logDone _ pom b hsp hph
          rw [hl] at hin
          exact ⟨pom, b, t, rfl, hph, List.mem_singleton.mp hin⟩

/-- Under the once/channel well-formedness of the invariant, `Cancel`
always leaves the channel closed (first call closes it, later calls keep
it closed). -/
theorem Cancel_chan_closed {pom : Pomodoro}
    (h1 : pom.cancelChan ≠ ChanState.panicked)
    (h2 : pom.cancelOnceDone = true ↔ pom.cancelChan = ChanState.closed) :
    pom.Cancel.cancelChan = ChanState.closed := by
  unfold Pomodoro.Cancel
  by_cases hd : pom.cancelOnceDone
  · rw [if_pos hd]
    exact h2.mp hd
  · rw [if_neg hd]
    have hop : pom.cancelChan = ChanState.opened := by
      cases hc : pom.cancelChan
      · rfl
      · exact absurd (h2.mpr hc) hd
      · exact absurd hc h1
    show closeChan pom.cancelChan = ChanState.closed
    rw [hop]
    rfl

/-! ### Reachability of the concrete example states -/

theorem reach_wS1 : Reachable wS1 :=
  Relation.ReflTransGen.single (Step.create initState 5 3 wInfo)

theorem wS1_poms0 : wS1.poms 0 = some (NewPomodoro 0 5 3 wInfo) := by decide

theorem reach_cexS2 : Reachable cexS2 :=
  Relation.ReflTransGen.tail
    (Relation.ReflTransGen.single (Step.create initState 0 7 wInfo))
    (Step.selectTimer cexS1 0 (NewPomodoro 0 0 7 wInfo) (by decide) rfl (by decide))

theorem reach_cexS3 : Reachable cexS3 :=
  Relation.ReflTransGen.tail reach_cexS2 (Step.remove cexS2 "chan1")

theorem reach_cexS4 : Reachable cexS4 :=
  Relation.ReflTransGen.tail reach_cexS3
    (Step.cbRemove cexS3 0 cexPomC true (by decide) (by decide))

theorem reach_cexS5 : Reachable cexS5 :=
  Relation.ReflTransGen.tail reach_cexS4
    (Step.cbUser cexS4 0 cexPomR true (by decide) (by decide))

/-! ### The claims -/

/-- Claim C1: if no Pomodoro occupies `notify.ChannelID`, `CreateIfEmpty`
returns `true` and registers and starts exactly one new Pomodoro (a fresh
index holding `NewPomodoro`, already in its running/waiting phase, all
other Pomodoros and the log untouched, the key now mapped); if the key is
occupied it returns `false` and leaves the whole state unchanged; and a
second call on the same key issued right after a successful one returns
`false`. -/
theorem C1_createIfEmpty_occupancy (s : SysState) (d cb : Nat) (notify : NotifyInfo) :
    (lookupKey s.channelToPom notify.ChannelID = none →
      (CreateIfEmpty s d cb notify).2 = true ∧
      (CreateIfEmpty s d cb notify).1.poms s.nextId =
        some (NewPomodoro s.time d cb notify) ∧
      (NewPomodoro s.time d cb notify).phase = PomPhase.waiting ∧
      (CreateIfEmpty s d cb notify).1.nextId = s.nextId + 1 ∧
      (∀ q, q ≠ s.nextId → (CreateIfEmpty s d cb notify).1.poms q = s.poms q) ∧
      (CreateIfEmpty s d cb notify).1.channelToPom =
        (notify.ChannelID, s.nextId) :: s.channelToPom ∧
      (CreateIfEmpty s d cb notify).1.cbLog = s.cbLog) ∧
    (lookupKey s.channelToPom notify.ChannelID ≠ none →
      CreateIfEmpty s d cb notify = (s, false)) ∧
    ((CreateIfEmpty s d cb notify).2 = true →
      ∀ d2 cb2 notify2, notify2.ChannelID = notify.ChannelID →
        (CreateIfEmpty (CreateIfEmpty s d cb notify).1 d2 cb2 notify2).2 = false) := by
  refine ⟨?_, ?_, ?_⟩
  · intro h
    rw [createIfEmpty_of_none h]
    exact ⟨rfl, registerPom_poms_self s d cb notify, rfl, rfl,
      fun q hq => registerPom_poms_ne s d cb notify hq, rfl, rfl⟩
  · intro h
    cases hc : lookupKey s.channelToPom notify.ChannelID with
    | none => exact absurd hc h
    | some pid => exact createIfEmpty_of_some hc d cb
  · intro htrue d2 cb2 notify2 hch
    cases hc : lookupKey s.channelToPom notify.ChannelID with
    | some pid =>
        rw [createIfEmpty_of_some hc] at htrue
        exact Bool.noConfusion htrue
    | none =>
        rw [createIfEmpty_of_none hc]
        have hlk : lookupKey (registerPom s d cb notify).channelToPom
            notify2.ChannelID = some s.nextId := by
          rw [registerPom_channelToPom]
          show (if notify.ChannelID = notify2.ChannelID then some s.nextId
            else lookupKey s.channelToPom notify2.ChannelID) = some s.nextId
          rw [if_pos hch.symm]
        rw [createIfEmpty_of_some hlk d2 cb2]

theorem C1_createIfEmpty_occupancy_witness :
    lookupKey initState.channelToPom wInfo.ChannelID = none ∧
    (CreateIfEmpty initState 2 0 wInfo).2 = true ∧
    (CreateIfEmpty (CreateIfEmpty initState 2 0 wInfo).1 9 1 wInfo).2 = false := by
  have h := C1_createIfEmpty_occupancy initState 2 0 wInfo
  exact ⟨by decide, (h.1 (by decide)).1, h.2.2 (h.1 (by decide)).1 9 1 wInfo rfl⟩

/-- Claim C4 (counterexample): `RemoveIfExists` can return `true` while the
callback that subsequently fires reports `completed = true`, not `false`:
in the reachable state `cexS2` the timer of the Pomodoro has already
fired but `doneInMap` has not removed the entry yet; `RemoveIfExists`
returns `true`, and the single callback invocation of the whole run
reports `true`. -/
theorem C4_counterexample :
    Reachable cexS2 ∧
    (RemoveIfExists cexS2 "chan1").2 = true ∧
    Relation.ReflTransGen Step (RemoveIfExists cexS2 "chan1").1 cexS5 ∧
    cexS5.cbLog = [⟨0, 7, wInfo, true, 0⟩] := by
  refine ⟨reach_cexS2, by decide, ?_, by decide⟩
  exact Relation.ReflTransGen.tail
    (Relation.ReflTransGen.single
      (Step.cbRemove cexS3 0 cexPomC true (by decide) (by decide)))
    (Step.cbUser cexS4 0 cexPomR true (by decide) (by decide))

/-- Claim C4 (amended): `RemoveIfExists(k)` returns `true` iff `k` is
occupied.  When it returns `true` it deletes the entry of `k` and calls
`Cancel()` on the owning Pomodoro (all other Pomodoros and the log are
untouched); if that Pomodoro was still waiting, its callback can
subsequently fire asynchronously with `completed = false`; but if its
timer branch had already fired, every subsequent callback invocation
reports `completed = true`.  When it returns `false` (key unoccupied) it
performs no side effects. -/
theorem C4_removeIfExists_amended (s : SysState) (ch : String) (hr : Reachable s) :
    ((RemoveIfExists s ch).2 = true ↔ lookupKey s.channelToPom ch ≠ none) ∧
    (lookupKey s.channelToPom ch = none → RemoveIfExists s ch = (s, false)) ∧
    (∀ pid, lookupKey s.channelToPom ch = some pid →
      lookupKey (RemoveIfExists s ch).1.channelToPom ch = none ∧
      (RemoveIfExists s ch).1.poms pid = (s.poms pid).map Pomodoro.Cancel ∧
      (∀ q, q ≠ pid → (RemoveIfExists s ch).1.poms q = s.poms q) ∧
      (RemoveIfExists s ch).1.cbLog = s.cbLog ∧
      (∀ pom, s.poms pid = some pom → pom.phase = PomPhase.waiting →
        ∃ s2, Relation.ReflTransGen Step (RemoveIfExists s ch).1 s2 ∧
          ∃ t, logFor s2 pid = [⟨pid, pom.cbId, pom.notifyInfo, false, t⟩]) ∧
      (∀ pom, s.poms pid = some pom → phaseFlag pom.phase = some true →
        ∀ s2, Relation.ReflTransGen Step (RemoveIfExists s ch).1 s2 →
          ∀ e, e ∈ logFor s2 pid → e.completed = true)) := by
  have hI := inv_reachable hr
  refine ⟨?_, ?_, ?_⟩
  · constructor
    · intro htrue hnone
      rw [removeIfExists_of_none hnone] at htrue
      exact Bool.noConfusion htrue
    · intro hsome
      cases hc : lookupKey s.channelToPom ch with
      | none => exact absurd hc hsome
      | some pid => rw [removeIfExists_of_some hc]
  · intro h
    exact removeIfExists_of_none h
  · intro pid hc
    have heq : (RemoveIfExists s ch).1 = eraseCancel s ch pid := by
      rw [removeIfExists_of_some hc]
    have hI1 : Inv (eraseCancel s ch pid) := inv_eraseCancel hI hc
    refine ⟨?_, ?_, ?_, ?_, ?_, ?_⟩
    · rw [heq, eraseCancel_channelToPom]
      exact lookupKey_eraseKey_self _ _
    · rw [heq]
      exact eraseCancel_poms_self s ch pid
    · intro q hq
      rw [heq]
      exact eraseCancel_poms_ne s ch pid hq
    · rw [heq, eraseCancel_cbLog]
    · intro pom hpom hph
      have hp1 : (eraseCancel s ch pid).poms pid = some pom.Cancel := by
        rw [eraseCancel_poms_self, hpom]
        rfl
      have honce := hI.onceChan pid pom hpom
      have hchan : pom.Cancel.cancelChan = ChanState.closed :=
        Cancel_chan_closed honce.1 honce.2
      have hphC : pom.Cancel.phase = PomPhase.waiting := by
        rw [Cancel_phase, hph]
      obtain ⟨s2, pom2, hrtg, hp2, hph2, hcb2, hinfo2, hlg2, ht2⟩ :=
        cancelled_can_complete hp1 hphC hchan
      refine ⟨s2, by rw [heq]; exact hrtg, (eraseCancel s ch pid).time, ?_⟩
      rw [logFor_eq_append pid hlg2, if_pos rfl]
      rw [hI1.logNotDone pid pom.Cancel hp1
        (by intro b hb; rw [hphC] at hb; exact PomPhase.noConfusion hb)]
      rw [List.nil_append, Cancel_cbId, Cancel_notifyInfo]
    · intro pom hpom hflag s2 hrtg2 e he
      have hp1 : (eraseCancel s ch pid).poms pid = some pom.Cancel := by
        rw [eraseCancel_poms_self, hpom]
        rfl
      have hflag1 : phaseFlag pom.Cancel.phase = some true := by
        rw [Cancel_phase]
        exact hflag
      refine flag_fixes_callback hI1 hp1 hflag1 s2 ?_ e he
      rw [← heq]
      exact hrtg2

theorem C4_removeIfExists_amended_witness :
    (RemoveIfExists wS1 "chan1").2 = true ∧
    lookupKey (RemoveIfExists wS1 "chan1").1.channelToPom "chan1" = none ∧
    (∃ s2, Relation.ReflTransGen Step (RemoveIfExists wS1 "chan1").1 s2 ∧
      ∃ t, logFor s2 0 = [⟨0, 3, wInfo, false, t⟩]) := by
  have h := C4_removeIfExists_amended wS1 "chan1" reach_wS1
  have hc : lookupKey wS1.channelToPom "chan1" = some 0 := by decide
  refine ⟨h.1.mpr (by rw [hc]; exact fun hh => Option.noConfusion hh), (h.2.2 0 hc).1, ?_⟩
  exact (h.2.2 0 hc).2.2.2.2.1 (NewPomodoro 0 5 3 wInfo) wS1_poms0 rfl

/-- Claim C10: if a Pomodoro's timer has already fired but `doneInMap` has
not yet removed the map entry, `RemoveIfExists` on that key still returns
`true`; the `Cancel` it performs on the finished Pomodoro is a harmless
no-op (no panic, phase untouched); the single callback invocation that
follows is still possible and reports `completed = true` — in every
possible future, never `false`. -/
theorem C10_remove_in_fired_window (s : SysState) (hr : Reachable s)
    (pid : Nat) (pom : Pomodoro) (k : String) (hpom : s.poms pid = some pom)
    (hphase : pom.phase = PomPhase.fired true)
    (hmem : (k, pid) ∈ s.channelToPom) :
    (RemoveIfExists s k).2 = true ∧
    (RemoveIfExists s k).1.poms pid = some pom.Cancel ∧
    pom.Cancel.phase = PomPhase.fired true ∧
    pom.Cancel.cancelChan ≠ ChanState.panicked ∧
    (∃ s2 pom2, Relation.ReflTransGen Step (RemoveIfExists s k).1 s2 ∧
      s2.poms pid = some pom2 ∧ pom2.phase = PomPhase.done true) ∧
    (∀ s2, Relation.ReflTransGen Step (RemoveIfExists s k).1 s2 →
      ∀ e, e ∈ logFor s2 pid → e.completed = true) := by
  have hI := inv_reachable hr
  have hc : lookupKey s.channelToPom k = some pid :=
    mem_lookupKey_of_nodup hI.mapNodup hmem
  have heq : (RemoveIfExists s k).1 = eraseCancel s k pid := by
    rw [removeIfExists_of_some hc]
  have honce := hI.onceChan pid pom hpom
  have hp1 : (eraseCancel s k pid).poms pid = some pom.Cancel := by
    rw [eraseCancel_poms_self, hpom]
    rfl
  have hphC : pom.Cancel.phase = PomPhase.fired true := by
    rw [Cancel_phase, hphase]
  have hI1 : Inv (eraseCancel s k pid) := inv_eraseCancel hI hc
  refine ⟨?_, ?_, hphC, (Cancel_onceChan honce.1 honce.2).1, ?_, ?_⟩
  · rw [removeIfExists_of_some hc]
  · rw [heq]
    exact hp1
  · obtain ⟨s2, pom2, hrtg, hp2, hph2, _⟩ := fired_can_complete hp1 hphC
    refine ⟨s2, pom2, ?_, hp2, hph2⟩
    rw [heq]
    exact hrtg
  · intro s2 hrtg2 e he
    refine flag_fixes_callback hI1 hp1 (by rw [hphC]; rfl) s2 ?_ e he
    rw [← heq]
    exact hrtg2

theorem C10_remove_in_fired_window_witness :
    (RemoveIfExists cexS2 "chan1").2 = true ∧
    cexPom.Cancel.phase = PomPhase.fired true := by
  have h := C10_remove_in_fired_window cexS2 reach_cexS2 0 cexPom "chan1"
    (by decide) (by decide) (by decide)
  exact ⟨h.1, h.2.2.1⟩

/-- Claim C2: the callback of a Pomodoro is invoked exactly once over its
lifetime: in every future of any reachable state it is logged at most
once; some future invokes it (the timer can always run to expiry, so the
count 1 is always attainable); and once the Pomodoro is `done` the count
is exactly one — regardless of how expiry interleaves with `Cancel` /
`RemoveIfExists` calls, since every interleaving is a path of `Step`. -/
theorem C2_callback_exactly_once (s : SysState) (hr : Reachable s) (pid : Nat)
    (pom : Pomodoro) (hpom : s.poms pid = some pom) :
    (∀ s2, Relation.ReflTransGen Step s s2 → (logFor s2 pid).length ≤ 1) ∧
    (∃ s2, Relation.ReflTransGen Step s s2 ∧ (logFor s2 pid).length = 1) ∧
    (∀ s2, Relation.ReflTransGen Step s s2 → ∀ pom2 b, s2.poms pid = some pom2 →
      pom2.phase = PomPhase.done b → (logFor s2 pid).length = 1) := by
  have hI := inv_reachable hr
  refine ⟨?_, ?_, ?_⟩
  · intro s2 hrtg
    exact logFor_length_le_one (inv_rtg hI hrtg) pid
  · obtain ⟨s2, pom2, hrtg, hp2, b, hph2⟩ := pom_can_complete hpom
    obtain ⟨t, _, hl⟩ := (inv_rtg hI hrtg).logDone pid pom2 b hp2 hph2
    exact ⟨s2, hrtg, by rw [hl]; rfl⟩
  · intro s2 hrtg pom2 b hp2 hph2
    obtain ⟨t, _, hl⟩ := (inv_rtg hI hrtg).logDone pid pom2 b hp2 hph2
    rw [hl]
    rfl

theorem C2_callback_exactly_once_witness :
    ∃ s2, Relation.ReflTransGen Step wS1 s2 ∧ (logFor s2 0).length = 1 :=
  (C2_callback_exactly_once wS1 reach_wS1 0 (NewPomodoro 0 5 3 wInfo) wS1_poms0).2.1

/-- Claim C3: whenever the callback of a Pomodoro has been invoked, its
entry is already gone from the map (no key is occupied by a Pomodoro
whose callback fired), and already at the intermediate phase — after the
`doneInMap` wrapper performed its removal, before the callback of the
caller runs — the entry is gone and nothing is logged yet.  The removal
is performed by `Step.cbRemove` literally as a `RemoveIfExists` call, the
same mutex-guarded operation used by external callers. -/
theorem C3_removed_before_callback (s : SysState) (hr : Reachable s) :
    (∀ e, e ∈ s.cbLog → ∀ k, (k, e.pomId) ∉ s.channelToPom) ∧
    (∀ pid pom b, s.poms pid = some pom →
      pom.phase = PomPhase.removedFromMap b →
      logFor s pid = [] ∧ ∀ k, (k, pid) ∉ s.channelToPom) := by
  have hI := inv_reachable hr
  constructor
  · intro e he k hk
    obtain ⟨pom, b, t, hsp, hph, _⟩ := log_event_matches hI he
    rcases hI.mapPhase (k, e.pomId) pom hk hsp with hw | ⟨b', hb'⟩
    · rw [hph] at hw
      exact PomPhase.noConfusion hw
    · rw [hph] at hb'
      exact PomPhase.noConfusion hb'
  · intro pid pom b hpom hph
    constructor
    · exact hI.logNotDone pid pom hpom
        (by intro b' hb'; rw [hph] at hb'; exact PomPhase.noConfusion hb')
    · intro k hk
      rcases hI.mapPhase (k, pid) pom hk hpom with hw | ⟨b', hb'⟩
      · rw [hph] at hw
        exact PomPhase.noConfusion hw
      · rw [hph] at hb'
        exact PomPhase.noConfusion hb'

theorem C3_removed_before_callback_witness :
    (⟨0, 7, wInfo, true, 0⟩ : CbEvent) ∈ cexS5.cbLog ∧
    ("chan1", 0) ∉ cexS5.channelToPom := by
  have h := C3_removed_before_callback cexS5 reach_cexS5
  exact ⟨by decide, h.1 ⟨0, 7, wInfo, true, 0⟩ (by decide) "chan1"⟩

/-- Claim C6: `Cancel` is idempotent and safe under any number of calls:
repeated calls are no-ops beyond the first (`sync.Once`), it never
panics and leaves the channel closed (exactly one signal), it performs no
phase transition itself, and calling it on a finished Pomodoro never
produces an extra callback (the log of the Pomodoro never exceeds one
entry in any future). -/
theorem C6_cancel_idempotent_safe (pom : Pomodoro) :
    (pom.Cancel.Cancel = pom.Cancel) ∧
    (pom.cancelOnceDone = true → pom.Cancel = pom) ∧
    (pom.Cancel.phase = pom.phase) ∧
    (∀ s pid, Reachable s → s.poms pid = some pom →
      pom.Cancel.cancelChan = ChanState.closed ∧
      pom.Cancel.cancelChan ≠ ChanState.panicked ∧
      (∀ s2, Relation.ReflTransGen Step s s2 → (logFor s2 pid).length ≤ 1)) := by
  refine ⟨?_, ?_, Cancel_phase pom, ?_⟩
  · have honceT : pom.Cancel.cancelOnceDone = true := by
      unfold Pomodoro.Cancel
      by_cases hd : pom.cancelOnceDone
      · rw [if_pos hd]
        exact hd
      · rw [if_neg hd]
    have h2 : ∀ q : Pomodoro, q.cancelOnceDone = true → q.Cancel = q := by
      intro q hq
      unfold Pomodoro.Cancel
      rw [if_pos hq]
    exact h2 pom.Cancel honceT
  · intro hd
    unfold Pomodoro.Cancel
    rw [if_pos hd]
  · intro s pid hr hpom
    have hI := inv_reachable hr
    have honce := hI.onceChan pid pom hpom
    refine ⟨Cancel_chan_closed honce.1 honce.2,
      (Cancel_onceChan honce.1 honce.2).1, ?_⟩
    intro s2 hrtg
    exact logFor_length_le_one (inv_rtg hI hrtg) pid

theorem C6_cancel_idempotent_safe_witness :
    (NewPomodoro 0 5 3 wInfo).Cancel.cancelChan = ChanState.closed ∧
    (NewPomodoro 0 5 3 wInfo).Cancel.Cancel = (NewPomodoro 0 5 3 wInfo).Cancel := by
  have h := C6_cancel_idempotent_safe (NewPomodoro 0 5 3 wInfo)
  exact ⟨(h.2.2.2 wS1 0 reach_wS1 wS1_poms0).1, h.1⟩

theorem createAll_nil (s : SysState) : createAll s [] = (s, []) := rfl

theorem createAll_cons (s : SysState) (c : Nat × Nat × NotifyInfo)
    (rest : List (Nat × Nat × NotifyInfo)) :
    createAll s (c :: rest) =
      ((createAll (CreateIfEmpty s c.1 c.2.1 c.2.2).1 rest).1,
        (CreateIfEmpty s c.1 c.2.1 c.2.2).2 ::
          (createAll (CreateIfEmpty s c.1 c.2.1 c.2.2).1 rest).2) := rfl

theorem count_true_replicate_false (n : Nat) :
    (List.replicate n false).count true = 0 := by
  induction n with
  | zero => rfl
  | succ n ih => simp [List.replicate_succ, List.count_cons, ih]

/-- Creates on an occupied key all fail and leave the state untouched. -/
theorem createAll_occupied (s : SysState) (k : String) :
    ∀ calls : List (Nat × Nat × NotifyInfo),
    (∀ c ∈ calls, c.2.2.ChannelID = k) →
    lookupKey s.channelToPom k ≠ none →
    createAll s calls = (s, List.replicate calls.length false) := by
  intro calls
  induction calls with
  | nil => intro _ _; rfl
  | cons c rest ih =>
      intro hkeys hocc
      have hck : c.2.2.ChannelID = k := hkeys c (List.mem_cons_self _ _)
      have hc1 : CreateIfEmpty s c.1 c.2.1 c.2.2 = (s, false) := by
        cases hc : lookupKey s.channelToPom c.2.2.ChannelID with
        | none => exact absurd (by rw [← hck]; exact hc) hocc
        | some pid => exact createIfEmpty_of_some hc _ _
      rw [createAll_cons, hc1]
      rw [ih (fun c' hc' => hkeys c' (List.mem_cons_of_mem _ hc')) hocc]
      rfl

/-- Claim C5: a callback reporting natural expiry is never delivered
before the duration has elapsed (every logged `completed = true` event
happens at or after `createdAt + workDuration`); a Pomodoro created with
duration `d` and never cancelled can deliver `completed = true` at time
exactly `d` after creation; and one cancelled `d1 < d` after creation can
deliver `completed = false` at time exactly `d1` after creation, without
waiting for `d`.  (The ±8ms wall-clock scheduling tolerance of the spec
is idealised to exactness: the model delivers at the earliest instant the
Go runtime may.) -/
theorem C5_timing :
    (∀ s, Reachable s → ∀ e, e ∈ s.cbLog → e.completed = true →
      ∀ pom, s.poms e.pomId = some pom →
        pom.createdAt + pom.workDuration ≤ e.time) ∧
    (∀ s d cb notify, Reachable s →
      lookupKey s.channelToPom notify.ChannelID = none →
      ∃ s2, Relation.ReflTransGen Step (CreateIfEmpty s d cb notify).1 s2 ∧
        logFor s2 s.nextId = [⟨s.nextId, cb, notify, true, s.time + d⟩]) ∧
    (∀ s d cb notify d1, Reachable s → d1 < d →
      lookupKey s.channelToPom notify.ChannelID = none →
      ∃ s2, Relation.ReflTransGen Step (CreateIfEmpty s d cb notify).1 s2 ∧
        logFor s2 s.nextId = [⟨s.nextId, cb, notify, false, s.time + d1⟩]) := by
  refine ⟨?_, ?_, ?_⟩
  · intro s hr e he hc pom hpom
    exact (inv_reachable hr).logTrueTime e he hc pom hpom
  · intro s d cb notify hr hnone
    have hI := inv_reachable hr
    have heq : (CreateIfEmpty s d cb notify).1 = registerPom s d cb notify := by
      rw [createIfEmpty_of_none hnone]
    have hI1 : Inv (registerPom s d cb notify) := inv_registerPom hI d cb hnone
    have hp1 : (registerPom s d cb notify).poms s.nextId =
        some (NewPomodoro s.time d cb notify) := registerPom_poms_self _ _ _ _
    obtain ⟨s2, pom2, hrtg, hp2, hph2, hcb2, hinfo2, hlg2, ht2⟩ :=
      waiting_can_fire_at hp1 rfl d (Nat.le_refl _)
    refine ⟨s2, by rw [heq]; exact hrtg, ?_⟩
    rw [logFor_eq_append s.nextId hlg2, if_pos rfl]
    rw [hI1.logNotDone s.nextId (NewPomodoro s.time d cb notify) hp1
      (fun b hb => PomPhase.noConfusion hb)]
    rw [List.nil_append]
    rfl
  · intro s d cb notify d1 hr hlt hnone
    have hI := inv_reachable hr
    have heq : (CreateIfEmpty s d cb notify).1 = registerPom s d cb notify := by
      rw [createIfEmpty_of_none hnone]
    have hI1 : Inv (registerPom s d cb notify) := inv_registerPom hI d cb hnone
    have hI1t : Inv (ticks (registerPom s d cb notify) d1) :=
      inv_rtg hI1 (rtg_ticks _ d1)
    have hlk : lookupKey (ticks (registerPom s d cb notify) d1).channelToPom
        notify.ChannelID = some s.nextId := by
      rw [ticks_channelToPom, registerPom_channelToPom]
      show (if notify.ChannelID = notify.ChannelID then some s.nextId
        else lookupKey s.channelToPom notify.ChannelID) = some s.nextId
      rw [if_pos rfl]
    have heqB : (RemoveIfExists (ticks (registerPom s d cb notify) d1)
        notify.ChannelID).1 =
        eraseCancel (ticks (registerPom s d cb notify) d1)
          notify.ChannelID s.nextId := by
      rw [removeIfExists_of_some hlk]
    have hI2 : Inv (eraseCancel (ticks (registerPom s d cb notify) d1)
        notify.ChannelID s.nextId) := inv_eraseCancel hI1t hlk
    have hp2 : (eraseCancel (ticks (registerPom s d cb notify) d1)
        notify.ChannelID s.nextId).poms s.nextId =
        some (NewPomodoro s.time d cb notify).Cancel := by
      rw [eraseCancel_poms_self, ticks_poms, registerPom_poms_self]
      rfl
    have hph2 : (NewPomodoro s.time d cb notify).Cancel.phase =
        PomPhase.waiting := by
      rw [Cancel_phase]
      rfl
    have hch2 : (NewPomodoro s.time d cb notify).Cancel.cancelChan =
        ChanState.closed := rfl
    obtain ⟨s2, pom2, hrtg3, hp3, hph3, hcb3, hinfo3, hlg3, ht3⟩ :=
      cancelled_can_complete hp2 hph2 hch2
    refine ⟨s2, ?_, ?_⟩
    · rw [heq]
      refine Relation.ReflTransGen.trans (rtg_ticks _ d1)
        (Relation.ReflTransGen.head
          (Step.remove (ticks (registerPom s d cb notify) d1) notify.ChannelID) ?_)
      rw [heqB]
      exact hrtg3
    · rw [logFor_eq_append s.nextId hlg3, if_pos rfl]
      rw [hI2.logNotDone s.nextId (NewPomodoro s.time d cb notify).Cancel hp2
        (by intro b hb; rw [hph2] at hb; exact PomPhase.noConfusion hb)]
      rw [List.nil_append]
      rfl

theorem C5_timing_witness :
    (1 : Nat) < 2 ∧
    (∃ s2, Relation.ReflTransGen Step (CreateIfEmpty initState 2 0 wInfo).1 s2 ∧
      logFor s2 0 = [⟨0, 0, wInfo, true, 2⟩]) ∧
    (∃ s2, Relation.ReflTransGen Step (CreateIfEmpty initState 2 0 wInfo).1 s2 ∧
      logFor s2 0 = [⟨0, 0, wInfo, false, 1⟩]) := by
  have h := C5_timing
  exact ⟨by decide,
    h.2.1 initState 2 0 wInfo Relation.ReflTransGen.refl (by decide),
    h.2.2 initState 2 0 wInfo 1 Relation.ReflTransGen.refl (by decide) (by decide)⟩

/-- Claim C7: `Count` tracks occupancy exactly: a successful create
increments it; a failed create leaves it unchanged; a successful
`RemoveIfExists` decrements it; a failed one changes nothing; the removal
performed by `doneInMap` on natural completion decrements it; when every
Pomodoro is done the count is `0`; and `N` creates on `N` distinct fresh
keys all succeed and raise the count by `N`. -/
theorem C7_count :
    (∀ s d cb notify, lookupKey s.channelToPom notify.ChannelID = none →
      Count (CreateIfEmpty s d cb notify).1 = Count s + 1) ∧
    (∀ s d cb notify, lookupKey s.channelToPom notify.ChannelID ≠ none →
      Count (CreateIfEmpty s d cb notify).1 = Count s) ∧
    (∀ s ch, Reachable s → (RemoveIfExists s ch).2 = true →
      Count (RemoveIfExists s ch).1 + 1 = Count s) ∧
    (∀ s ch, (RemoveIfExists s ch).2 = false → (RemoveIfExists s ch).1 = s) ∧
    (∀ s pid pom b, Reachable s → s.poms pid = some pom →
      pom.phase = PomPhase.fired b →
      (pom.notifyInfo.ChannelID, pid) ∈ s.channelToPom →
      Count (RemoveIfExists
        (setPom s pid { pom with phase := PomPhase.removedFromMap b })
        pom.notifyInfo.ChannelID).1 + 1 = Count s) ∧
    (∀ s, Reachable s →
      (∀ pid pom, s.poms pid = some pom → ∃ b, pom.phase = PomPhase.done b) →
      Count s = 0) ∧
    (∀ s calls, ((calls.map (fun c => c.2.2.ChannelID)).Nodup) →
      (∀ c ∈ calls, lookupKey s.channelToPom c.2.2.ChannelID = none) →
      Count (createAll s calls).1 = Count s + calls.length ∧
      (createAll s calls).2 = List.replicate calls.length true) := by
  refine ⟨?_, ?_, ?_, ?_, ?_, ?_, ?_⟩
  · intro s d cb notify h
    rw [createIfEmpty_of_none h]
    show (registerPom s d cb notify).channelToPom.length = s.channelToPom.length + 1
    rw [registerPom_channelToPom]
    rfl
  · intro s d cb notify h
    cases hc : lookupKey s.channelToPom notify.ChannelID with
    | none => exact absurd hc h
    | some pid => rw [createIfEmpty_of_some hc]
  · intro s ch hr htrue
    have hI := inv_reachable hr
    cases hc : lookupKey s.channelToPom ch with
    | none =>
        rw [removeIfExists_of_none hc] at htrue
        exact Bool.noConfusion htrue
    | some pid =>
        rw [removeIfExists_of_some hc]
        show (eraseKey s.channelToPom ch).length + 1 = s.channelToPom.length
        exact eraseKey_length hI.mapNodup hc
  · intro s ch hfalse
    cases hc : lookupKey s.channelToPom ch with
    | none => rw [removeIfExists_of_none hc]
    | some pid =>
        rw [removeIfExists_of_some hc] at hfalse
        exact Bool.noConfusion hfalse
  · intro s pid pom b hr hpom hphase hmem
    have hI := inv_reachable hr
    have hlk : lookupKey
        (setPom s pid { pom with phase := PomPhase.removedFromMap b }).channelToPom
        pom.notifyInfo.ChannelID = some pid :=
      mem_lookupKey_of_nodup hI.mapNodup hmem
    rw [removeIfExists_of_some hlk]
    show (eraseKey s.channelToPom pom.notifyInfo.ChannelID).length + 1 =
      s.channelToPom.length
    exact eraseKey_length hI.mapNodup hlk
  · intro s hr hall
    have hI := inv_reachable hr
    cases hm : s.channelToPom with
    | nil =>
        show s.channelToPom.length = 0
        rw [hm]
        rfl
    | cons p rest =>
        exfalso
        have hp : p ∈ s.channelToPom := by
          rw [hm]
          exact List.mem_cons_self _ _
        obtain ⟨pom, hpom, _⟩ := hI.mapKey p hp
        obtain ⟨b, hdone⟩ := hall p.2 pom hpom
        rcases hI.mapPhase p pom hp hpom with hw | ⟨b', hb'⟩
        · rw [hdone] at hw
          exact PomPhase.noConfusion hw
        · rw [hdone] at hb'
          exact PomPhase.noConfusion hb'
  · intro s calls
    revert s
    induction calls with
    | nil =>
        intro s _ _
        exact ⟨rfl, rfl⟩
    | cons c rest ih =>
        intro s hnd hfresh
        rw [List.map_cons, List.nodup_cons] at hnd
        have hc1 : lookupKey s.channelToPom c.2.2.ChannelID = none :=
          hfresh c (List.mem_cons_self _ _)
        rw [createAll_cons, createIfEmpty_of_none hc1]
        have hfresh2 : ∀ c' ∈ rest,
            lookupKey (registerPom s c.1 c.2.1 c.2.2).channelToPom
              c'.2.2.ChannelID = none := by
          intro c' hc'
          rw [registerPom_channelToPom]
          show (if c.2.2.ChannelID = c'.2.2.ChannelID then some s.nextId
            else lookupKey s.channelToPom c'.2.2.ChannelID) = none
          rw [if_neg (fun hh => hnd.1 (by
            rw [hh]
            exact List.mem_map_of_mem (fun c0 => c0.2.2.ChannelID) hc'))]
          exact hfresh c' (List.mem_cons_of_mem _ hc')
        obtain ⟨ihc, ihr⟩ := ih (registerPom s c.1 c.2.1 c.2.2) hnd.2 hfresh2
        constructor
        · show Count (createAll (registerPom s c.1 c.2.1 c.2.2) rest).1 =
            Count s + (c :: rest).length
          rw [ihc]
          show Count (registerPom s c.1 c.2.1 c.2.2) + rest.length =
            Count s + (rest.length + 1)
          have hcount : Count (registerPom s c.1 c.2.1 c.2.2) = Count s + 1 := by
            show (registerPom s c.1 c.2.1 c.2.2).channelToPom.length =
              s.channelToPom.length + 1
            rw [registerPom_channelToPom]
            rfl
          rw [hcount]
          omega
        · show true :: (createAll (registerPom s c.1 c.2.1 c.2.2) rest).2 =
            List.replicate (c :: rest).length true
          rw [ihr]
          rfl

theorem C7_count_witness :
    lookupKey initState.channelToPom wInfo.ChannelID = none ∧
    Count (CreateIfEmpty initState 2 0 wInfo).1 = Count initState + 1 ∧
    Count initState = 0 :=
  ⟨by decide, C7_count.1 initState 2 0 wInfo (by decide), by decide⟩

/-- Claim C8: when any number of callers concurrently issue
`CreateIfEmpty` for the same unoccupied key — the mutex serialises them
into some sequence, so all interleavings are sequences `createAll` —
exactly one call returns `true` and all others return `false`. -/
theorem C8_concurrent_create_single_winner (s : SysState) (k : String)
    (calls : List (Nat × Nat × NotifyInfo)) (hne : calls ≠ [])
    (hkeys : ∀ c ∈ calls, c.2.2.ChannelID = k)
    (hfree : lookupKey s.channelToPom k = none) :
    (createAll s calls).2.count true = 1 ∧
    (createAll s calls).2.length = calls.length := by
  cases calls with
  | nil => exact absurd rfl hne
  | cons c rest =>
      have hck : c.2.2.ChannelID = k := hkeys c (List.mem_cons_self _ _)
      have hc1 : lookupKey s.channelToPom c.2.2.ChannelID = none := by
        rw [hck]
        exact hfree
      rw [createAll_cons, createIfEmpty_of_none hc1]
      have hocc : lookupKey (registerPom s c.1 c.2.1 c.2.2).channelToPom
          k ≠ none := by
        rw [registerPom_channelToPom]
        show (if c.2.2.ChannelID = k then some s.nextId
          else lookupKey s.channelToPom k) ≠ none
        rw [if_pos hck]
        exact fun hh => Option.noConfusion hh
      rw [createAll_occupied (registerPom s c.1 c.2.1 c.2.2) k rest
        (fun c' hc' => hkeys c' (List.mem_cons_of_mem _ hc')) hocc]
      constructor
      · show (true :: List.replicate rest.length false).count true = 1
        simp [List.count_cons, count_true_replicate_false]
      · show (true :: List.replicate rest.length false).length =
          (c :: rest).length
        simp

theorem C8_concurrent_create_single_winner_witness :
    List.replicate 100 ((2 : Nat), (0 : Nat), wInfo) ≠ [] ∧
    (createAll initState (List.replicate 100 ((2 : Nat), (0 : Nat), wInfo))).2.count
      true = 1 ∧
    (createAll initState
      (List.replicate 100 ((2 : Nat), (0 : Nat), wInfo))).2.length = 100 := by
  have h := C8_concurrent_create_single_winner initState "chan1"
    (List.replicate 100 (2, 0, wInfo)) (by decide) (by decide) (by decide)
  exact ⟨by decide, h.1, h.2⟩

/-- Claim C9: `CreateIfEmpty` takes no separate key — the key is
`notify.ChannelID`: every map entry's key is the `ChannelID` of the
payload of the Pomodoro it points to; the stored payload is the exact
`NotifyInfo` passed at creation, registered under its own `ChannelID`;
every callback invocation delivers verbatim the stored payload and
handle; and two creates whose payloads share a `ChannelID` conflict even
if every other field differs. -/
theorem C9_key_from_payload :
    (∀ s, Reachable s → ∀ k pid, (k, pid) ∈ s.channelToPom →
      ∃ pom, s.poms pid = some pom ∧ pom.notifyInfo.ChannelID = k) ∧
    (∀ s d cb notify, lookupKey s.channelToPom notify.ChannelID = none →
      (CreateIfEmpty s d cb notify).1.poms s.nextId =
        some (NewPomodoro s.time d cb notify) ∧
      (NewPomodoro s.time d cb notify).notifyInfo = notify ∧
      (CreateIfEmpty s d cb notify).1.channelToPom =
        (notify.ChannelID, s.nextId) :: s.channelToPom) ∧
    (∀ s, Reachable s → ∀ e, e ∈ s.cbLog →
      ∃ pom, s.poms e.pomId = some pom ∧ e.info = pom.notifyInfo ∧
        e.cbId = pom.cbId) ∧
    (∀ s d cb notify d2 cb2 notify2, notify2.ChannelID = notify.ChannelID →
      lookupKey s.channelToPom notify.ChannelID = none →
      (CreateIfEmpty (CreateIfEmpty s d cb notify).1 d2 cb2 notify2).2 = false) := by
  refine ⟨?_, ?_, ?_, ?_⟩
  · intro s hr k pid hmem
    exact (inv_reachable hr).mapKey (k, pid) hmem
  · intro s d cb notify h
    rw [createIfEmpty_of_none h]
    exact ⟨registerPom_poms_self s d cb notify, rfl, rfl⟩
  · intro s hr e he
    obtain ⟨pom, b, t, hsp, hph, hev⟩ := log_event_matches (inv_reachable hr) he
    exact ⟨pom, hsp, by rw [hev], by rw [hev]⟩
  · intro s d cb notify d2 cb2 notify2 hch h
    rw [createIfEmpty_of_none h]
    have hlk : lookupKey (registerPom s d cb notify).channelToPom
        notify2.ChannelID = some s.nextId := by
      rw [registerPom_channelToPom]
      show (if notify.ChannelID = notify2.ChannelID then some s.nextId
        else lookupKey s.channelToPom notify2.ChannelID) = some s.nextId
      rw [if_pos hch.symm]
    rw [createIfEmpty_of_some hlk d2 cb2]

theorem C9_key_from_payload_witness :
    wInfo2.ChannelID = wInfo.ChannelID ∧ wInfo2.Title ≠ wInfo.Title ∧
    (CreateIfEmpty (CreateIfEmpty initState 2 0 wInfo).1 9 1 wInfo2).2 = false := by
  have h := C9_key_from_payload
  exact ⟨rfl, by decide, h.2.2.2 initState 2 0 wInfo 9 1 wInfo2 rfl (by decide)⟩

end Cbb
